import Mathlib

/-!
Verification development for the zotero-publication-rankings update scripts
(`extract_abs.py`, `extract_sjr.py`, `extract_full_core.py`).

Modelling conventions (shallow embedding):
* Python strings are Lean `String` (a structure wrapping `List Char`); the
  character-level artifact reasoning works on `List Char`.
* Python exceptions are `Except PyErr`; an uncaught exception escaping a
  function is `.error e`.
* A Python `dict` is an insertion-ordered association list with unique keys;
  `d[k] = v` updates in place when `k` is present and appends otherwise,
  which is exactly the CPython ordering behaviour.
* Python `float` values are modelled exactly: a parsed decimal literal is the
  rational it denotes (`PyFloat.finite q`), plus `inf`/`nan` tokens.  IEEE-754
  rounding is not modelled; every property proved here concerns which strings
  parse and the decimal value they denote, and is insensitive to the final
  rounding step.
* `str.strip`/`str.lower` are modelled on ASCII (the rankings data is ASCII
  except for a few accented letters, which both model and code pass through
  unchanged).
* Reading the CSV file is modelled by handing the extractor the list of rows
  the `csv` module would yield; file-open failures and `print` diagnostics are
  outside the embedding.
-/

/-- Python exception kinds that the three scripts can actually raise from
row-level code: `IndexError` from `row[i]`, `StopIteration` from `next(reader)`
on an empty file, and the `AttributeError`/`KeyError` family raised when a
`csv.DictReader` row lacks a field (a missing value is `None`, and
`None.strip()` raises). -/
inductive PyErr where
  | indexError
  | stopIteration
  | fieldError
deriving DecidableEq

/-- Python `row[i]` on a list: the value at `i`, or `IndexError`. -/
def pyIdx (r : List String) (i : Nat) : Except PyErr String :=
  match r.get? i with
  | some s => .ok s
  | none => .error .indexError

/-- ASCII whitespace recognised by the model of Python `str.strip()`. -/
def isSpaceChar (c : Char) : Bool :=
  c = ' ' || c = '\t' || c = '\n' || c = '\r' || c = '\x0b' || c = '\x0c'

/-- Remove leading and trailing characters satisfying `p` (the semantics of
Python `str.strip(chars)`). -/
def stripBoth (p : Char → Bool) (l : List Char) : List Char :=
  (((l.dropWhile p).reverse).dropWhile p).reverse

/-- Python `s.strip()` (ASCII whitespace model). -/
def pyStrip (s : String) : String := ⟨stripBoth isSpaceChar s.data⟩

/-- Python `s.strip('"')`: removes every leading and trailing double quote. -/
def pyStripQuote (s : String) : String := ⟨stripBoth (fun c => c = '"') s.data⟩

/-- ASCII lower-casing of one character, the model of Python `str.lower` on
the ASCII range (non-ASCII characters pass through unchanged). -/
def asciiLower (c : Char) : Char :=
  if 'A' ≤ c ∧ c ≤ 'Z' then Char.ofNat (c.toNat + 32) else c

/-- Python `s.lower()` (ASCII model). -/
def pyLower (s : String) : String := ⟨s.data.map asciiLower⟩

/-- Python `s.replace(',', '.')`: single-character replacement is a map. -/
def commaToDot (s : String) : String :=
  ⟨s.data.map (fun c => if c = ',' then '.' else c)⟩

/-- Python `s.startswith(pat)`. -/
def pyStartsWith (s pat : String) : Bool := pat.data.isPrefixOf s.data

/-- Insertion-ordered Python dict as an association list with unique keys. -/
def PyDict (V : Type) : Type := List (String × V)

/-- The keys of a dict, in insertion order. -/
def dictKeys {V : Type} (d : List (String × V)) : List String := d.map Prod.fst

/-- Lookup in the association-list dict (first, and with unique keys only,
binding for the key). -/
def lookup? {V : Type} (d : List (String × V)) (k : String) : Option V :=
  match d with
  | [] => none
  | p :: ps => if p.1 = k then some p.2 else lookup? ps k

/-- Python `d[k] = v`: if `k` is present its binding is updated in place
(keeping its position); otherwise `(k, v)` is appended at the end.  This is
the CPython insertion-order semantics for dict assignment. -/
def dictInsert {V : Type} (d : List (String × V)) (k : String) (v : V) :
    List (String × V) :=
  match d with
  | [] => [(k, v)]
  | p :: ps => if p.1 = k then (k, v) :: ps else p :: dictInsert ps k v

theorem lookup_dictInsert_self {V : Type} (d : List (String × V)) (k : String) (v : V) :
    lookup? (dictInsert d k v) k = some v := by
  induction d with
  | nil => simp [dictInsert, lookup?]
  | cons p ps ih =>
    by_cases h : p.1 = k
    · simp [dictInsert, lookup?, h]
    · simp [dictInsert, lookup?, h, ih]

theorem lookup_dictInsert_ne {V : Type} (d : List (String × V)) (k k' : String) (v : V)
    (h : k' ≠ k) : lookup? (dictInsert d k v) k' = lookup? d k' := by
  have hk : ¬ k = k' := fun h' => h h'.symm
  induction d with
  | nil => simp [dictInsert, lookup?, hk]
  | cons p ps ih =>
    obtain ⟨a, b⟩ := p
    by_cases hp : a = k
    · have ha : ¬ a = k' := fun h' => hk (hp ▸ h')
      simp [dictInsert, lookup?, hp, hk, ha]
    · simp [dictInsert, lookup?, hp, ih]

theorem mem_dictKeys_dictInsert {V : Type} (d : List (String × V)) (k k' : String) (v : V) :
    k' ∈ dictKeys (dictInsert d k v) ↔ k' ∈ dictKeys d ∨ k' = k := by
  induction d with
  | nil => simp [dictInsert, dictKeys]
  | cons p ps ih =>
    obtain ⟨a, b⟩ := p
    by_cases hp : a = k
    · subst hp
      simp [dictInsert, dictKeys]
      tauto
    · simp [dictInsert, dictKeys, hp] at ih ⊢
      tauto

theorem nodup_dictKeys_dictInsert {V : Type} (d : List (String × V)) (k : String) (v : V)
    (h : (dictKeys d).Nodup) : (dictKeys (dictInsert d k v)).Nodup := by
  induction d with
  | nil => simp [dictInsert, dictKeys]
  | cons p ps ih =>
    obtain ⟨a, b⟩ := p
    rw [show dictKeys ((a, b) :: ps) = a :: dictKeys ps from rfl, List.nodup_cons] at h
    by_cases hp : a = k
    · subst hp
      rw [show dictInsert ((a, b) :: ps) a v = (a, v) :: ps by simp [dictInsert]]
      rw [show dictKeys ((a, v) :: ps) = a :: dictKeys ps from rfl, List.nodup_cons]
      exact h
    · simp only [dictInsert, if_neg hp]
      rw [show dictKeys ((a, b) :: dictInsert ps k v) = a :: dictKeys (dictInsert ps k v)
        from rfl, List.nodup_cons]
      constructor
      · rw [mem_dictKeys_dictInsert]
        push_neg
        exact ⟨h.1, hp⟩
      · exact ih h.2

theorem lookup_eq_some_of_mem {V : Type} (d : List (String × V)) (k : String) (v : V)
    (hnd : (dictKeys d).Nodup) (hm : (k, v) ∈ d) : lookup? d k = some v := by
  induction d with
  | nil => simp at hm
  | cons p ps ih =>
    obtain ⟨a, b⟩ := p
    rw [show dictKeys ((a, b) :: ps) = a :: dictKeys ps from rfl, List.nodup_cons] at hnd
    rcases List.mem_cons.mp hm with h | h
    · cases h
      simp [lookup?]
    · have hk : ¬ a = k := by
        intro hpk
        subst hpk
        exact hnd.1 (by simpa [dictKeys] using ⟨v, h⟩)
      simp [lookup?, hk, ih hnd.2 h]

theorem mem_of_lookup_eq_some {V : Type} (d : List (String × V)) (k : String) (v : V)
    (h : lookup? d k = some v) : (k, v) ∈ d := by
  induction d with
  | nil => simp [lookup?] at h
  | cons p ps ih =>
    obtain ⟨a, b⟩ := p
    by_cases hp : a = k
    · simp [lookup?, hp] at h
      subst hp
      subst h
      exact List.mem_cons_self _ _
    · simp [lookup?, hp] at h
      exact List.mem_cons_of_mem _ (ih h)

theorem lookup_eq_none_iff {V : Type} (d : List (String × V)) (k : String) :
    lookup? d k = none ↔ k ∉ dictKeys d := by
  induction d with
  | nil => simp [lookup?, dictKeys]
  | cons p ps ih =>
    by_cases hp : p.1 = k
    · simp [lookup?, hp, dictKeys]
    · simp [lookup?, hp, dictKeys, ih]
      intro h
      exact fun h' => hp h'.symm

/-- Lookup is determined by the underlying set of pairs when keys are unique:
permuting a dict does not change any lookup. -/
theorem lookup_eq_of_perm {V : Type} (d₁ d₂ : List (String × V))
    (hp : List.Perm d₁ d₂) (hnd : (dictKeys d₁).Nodup) (k : String) :
    lookup? d₁ k = lookup? d₂ k := by
  have hnd₂ : (dictKeys d₂).Nodup := ((hp.map Prod.fst).nodup_iff).mp hnd
  cases h : lookup? d₁ k with
  | some v =>
    exact (lookup_eq_some_of_mem d₂ k v hnd₂ (hp.mem_iff.mp (mem_of_lookup_eq_some d₁ k v h))).symm
  | none =>
    have : k ∉ dictKeys d₂ := by
      intro hk
      exact (lookup_eq_none_iff d₁ k).mp h (((hp.map Prod.fst).mem_iff).mpr hk)
    exact ((lookup_eq_none_iff d₂ k).mpr this).symm

/-- One extraction loop, shared by the three scripts: each row is transformed
by `f` into either an uncaught exception (`.error`), a skipped row
(`.ok none`), or an accepted key/value pair that is assigned into the dict
(`.ok (some (k, v))`). -/
def runRows {ρ V : Type} (f : ρ → Except PyErr (Option (String × V))) :
    List ρ → List (String × V) → Except PyErr (List (String × V))
  | [], acc => .ok acc
  | r :: rs, acc =>
    match f r with
    | .error e => .error e
    | .ok none => runRows f rs acc
    | .ok (some (k, v)) => runRows f rs (dictInsert acc k v)

/-- Total variant of the extraction loop, for extractors (or inputs) that
cannot raise. -/
def runRowsTotal {ρ V : Type} (g : ρ → Option (String × V)) :
    List ρ → List (String × V) → List (String × V)
  | [], acc => acc
  | r :: rs, acc =>
    match g r with
    | none => runRowsTotal g rs acc
    | some (k, v) => runRowsTotal g rs (dictInsert acc k v)

theorem runRows_eq_total {ρ V : Type} (f : ρ → Except PyErr (Option (String × V)))
    (g : ρ → Option (String × V)) :
    ∀ (rs : List ρ) (acc : List (String × V)), (∀ r ∈ rs, f r = .ok (g r)) →
      runRows f rs acc = .ok (runRowsTotal g rs acc) := by
  intro rs
  induction rs with
  | nil => intro acc _; rfl
  | cons r rs ih =>
    intro acc h
    have hr := h r (by simp)
    have ht := fun r' hr' => h r' (List.mem_cons_of_mem _ hr')
    cases hg : g r with
    | none => simp [runRows, runRowsTotal, hr, hg, ih acc ht]
    | some p => simp [runRows, runRowsTotal, hr, hg, ih _ ht]

theorem runRows_append {ρ V : Type} (f : ρ → Except PyErr (Option (String × V)))
    (l₁ l₂ : List ρ) (acc : List (String × V)) :
    runRows f (l₁ ++ l₂) acc =
      match runRows f l₁ acc with
      | .ok t => runRows f l₂ t
      | .error e => .error e := by
  induction l₁ generalizing acc with
  | nil => simp [runRows]
  | cons r rs ih =>
    cases hr : f r with
    | error e => simp [runRows, hr]
    | ok o =>
      cases o with
      | none => simp [runRows, hr, ih]
      | some p => simp [runRows, hr, ih]

theorem runRows_keys_mono {ρ V : Type} (f : ρ → Except PyErr (Option (String × V))) :
    ∀ (rs : List ρ) (acc t : List (String × V)), runRows f rs acc = .ok t →
      ∀ k ∈ dictKeys acc, k ∈ dictKeys t := by
  intro rs
  induction rs with
  | nil =>
    intro acc t h
    simp [runRows] at h
    subst h
    exact fun k hk => hk
  | cons r rs ih =>
    intro acc t h k hk
    cases hr : f r with
    | error e => simp [runRows, hr] at h
    | ok o =>
      cases o with
      | none =>
        simp [runRows, hr] at h
        exact ih acc t h k hk
      | some p =>
        simp [runRows, hr] at h
        exact ih _ t h k ((mem_dictKeys_dictInsert acc p.1 k p.2).mpr (Or.inl hk))

theorem runRows_keys_from {ρ V : Type} (f : ρ → Except PyErr (Option (String × V))) :
    ∀ (rs : List ρ) (acc t : List (String × V)), runRows f rs acc = .ok t →
      ∀ k ∈ dictKeys t,
        k ∈ dictKeys acc ∨ ∃ r ∈ rs, ∃ v, f r = .ok (some (k, v)) := by
  intro rs
  induction rs with
  | nil =>
    intro acc t h k hk
    simp [runRows] at h
    subst h
    exact Or.inl hk
  | cons r rs ih =>
    intro acc t h k hk
    cases hr : f r with
    | error e => simp [runRows, hr] at h
    | ok o =>
      cases o with
      | none =>
        simp [runRows, hr] at h
        rcases ih acc t h k hk with h' | ⟨r', hr', v, hv⟩
        · exact Or.inl h'
        · exact Or.inr ⟨r', List.mem_cons_of_mem _ hr', v, hv⟩
      | some p =>
        simp [runRows, hr] at h
        rcases ih _ t h k hk with h' | ⟨r', hr', v, hv⟩
        · rcases (mem_dictKeys_dictInsert acc p.1 k p.2).mp h' with h'' | h''
          · exact Or.inl h''
          · subst h''
            exact Or.inr ⟨r, by simp, p.2, by rw [hr]⟩
        · exact Or.inr ⟨r', List.mem_cons_of_mem _ hr', v, hv⟩

theorem runRows_mem_key {ρ V : Type} (f : ρ → Except PyErr (Option (String × V)))
    (rs : List ρ) (acc t : List (String × V)) (r : ρ) (k : String) (v : V)
    (hmem : r ∈ rs) (hr : f r = .ok (some (k, v))) (h : runRows f rs acc = .ok t) :
    k ∈ dictKeys t := by
  rcases List.append_of_mem hmem with ⟨l₁, l₂, rfl⟩
  rw [runRows_append] at h
  cases h₁ : runRows f l₁ acc with
  | error e => rw [h₁] at h; simp at h
  | ok t₁ =>
    rw [h₁] at h
    simp only [runRows, hr] at h
    exact runRows_keys_mono f l₂ _ t h k
      ((mem_dictKeys_dictInsert t₁ k k v).mpr (Or.inr rfl))

theorem runRows_lookup_untouched {ρ V : Type} (f : ρ → Except PyErr (Option (String × V))) :
    ∀ (rs : List ρ) (acc t : List (String × V)) (k : String),
      runRows f rs acc = .ok t → (∀ r ∈ rs, ∀ v, f r ≠ .ok (some (k, v))) →
      lookup? t k = lookup? acc k := by
  intro rs
  induction rs with
  | nil =>
    intro acc t k h _
    simp [runRows] at h
    subst h; rfl
  | cons r rs ih =>
    intro acc t k h hno
    cases hr : f r with
    | error e => simp [runRows, hr] at h
    | ok o =>
      cases o with
      | none =>
        simp [runRows, hr] at h
        exact ih acc t k h (fun r' h' => hno r' (List.mem_cons_of_mem _ h'))
      | some p =>
        simp [runRows, hr] at h
        have hne : k ≠ p.1 := by
          intro hk
          exact hno r (by simp) p.2 (by rw [hr, hk])
        rw [ih _ t k h (fun r' h' => hno r' (List.mem_cons_of_mem _ h')),
          lookup_dictInsert_ne acc p.1 k p.2 hne]

theorem runRows_error_of_mem {ρ V : Type} (f : ρ → Except PyErr (Option (String × V))) :
    ∀ (rs : List ρ) (acc : List (String × V)) (r : ρ) (e : PyErr),
      r ∈ rs → f r = .error e → ∃ e', runRows f rs acc = .error e' := by
  intro rs
  induction rs with
  | nil => intro acc r e h; simp at h
  | cons r₀ rs ih =>
    intro acc r e hmem he
    cases hr : f r₀ with
    | error e₀ => exact ⟨e₀, by simp [runRows, hr]⟩
    | ok o =>
      have hr' : r ∈ rs := by
        rcases List.mem_cons.mp hmem with h | h
        · subst h; rw [he] at hr; cases hr
        · exact h
      cases o with
      | none =>
        rcases ih acc r e hr' he with ⟨e', h'⟩
        exact ⟨e', by simp [runRows, hr, h']⟩
      | some p =>
        rcases ih (dictInsert acc p.1 p.2) r e hr' he with ⟨e', h'⟩
        exact ⟨e', by simp [runRows, hr, h']⟩

theorem runRows_nodup {ρ V : Type} (f : ρ → Except PyErr (Option (String × V))) :
    ∀ (rs : List ρ) (acc t : List (String × V)), runRows f rs acc = .ok t →
      (dictKeys acc).Nodup → (dictKeys t).Nodup := by
  intro rs
  induction rs with
  | nil =>
    intro acc t h hnd
    simp [runRows] at h
    subst h; exact hnd
  | cons r rs ih =>
    intro acc t h hnd
    cases hr : f r with
    | error e => simp [runRows, hr] at h
    | ok o =>
      cases o with
      | none =>
        simp [runRows, hr] at h
        exact ih acc t h hnd
      | some p =>
        simp [runRows, hr] at h
        exact ih _ t h (nodup_dictKeys_dictInsert acc p.1 p.2 hnd)

/-- Result of Python `float(str)` in the exact model: finite values are the
rational denoted by the decimal literal (IEEE-754 rounding is not modelled),
plus signed infinity and NaN tokens. -/
inductive PyFloat where
  | finite (q : ℚ)
  | inf (neg : Bool)
  | nan
deriving DecidableEq

/-- Digit run to a natural number (underscores already removed). -/
def digitsToNat (l : List Char) : Nat :=
  l.foldl (fun a c => a * 10 + (c.toNat - 48)) 0

/-- Mantissa of a Python float literal: digits with at most one dot and at
least one digit (`"1"`, `"1."`, `".5"`, `"1.5"`). -/
def parseMantissa (m : List Char) : Option ℚ :=
  let ip := m.takeWhile (fun c => c ≠ '.')
  let rest := m.dropWhile (fun c => c ≠ '.')
  match rest with
  | [] => if ip ≠ [] ∧ ip.all Char.isDigit then some (digitsToNat ip : ℚ) else none
  | _ :: fp =>
    if (ip ≠ [] ∨ fp ≠ []) ∧ ip.all Char.isDigit ∧ fp.all Char.isDigit then
      some ((digitsToNat ip : ℚ) + (digitsToNat fp : ℚ) / ((10 : ℚ) ^ fp.length))
    else none

/-- Exponent part of a Python float literal (after the `e`): optional sign
then a nonempty digit run. -/
def parseExp (e : List Char) : Option ℤ :=
  match e with
  | [] => none
  | c :: ds =>
    if c = '+' then
      if ds ≠ [] ∧ ds.all Char.isDigit then some ((digitsToNat ds : ℤ)) else none
    else if c = '-' then
      if ds ≠ [] ∧ ds.all Char.isDigit then some (-(digitsToNat ds : ℤ)) else none
    else if (c :: ds).all Char.isDigit then some ((digitsToNat (c :: ds) : ℤ)) else none

/-- Numeric (non-inf/nan) Python float literal: mantissa with optional
`e`/`E` exponent. -/
def parseNumeric (u : List Char) : Option ℚ :=
  let m := u.takeWhile (fun c => c ≠ 'e' ∧ c ≠ 'E')
  let rest := u.dropWhile (fun c => c ≠ 'e' ∧ c ≠ 'E')
  match rest with
  | [] => parseMantissa m
  | _ :: ex =>
    match parseMantissa m, parseExp ex with
    | some q, some z => some (q * (10 : ℚ) ^ z)
    | _, _ => none

/-- Unsigned part of Python `float(str)`: case-insensitive `inf`, `infinity`
and `nan`, otherwise a numeric literal. -/
def parseUnsigned (neg : Bool) (r : List Char) : Option PyFloat :=
  let low := r.map asciiLower
  if low = ['i', 'n', 'f'] ∨ low = ['i', 'n', 'f', 'i', 'n', 'i', 't', 'y'] then
    some (.inf neg)
  else if low = ['n', 'a', 'n'] then some .nan
  else
    match parseNumeric r with
    | some q => some (.finite (if neg then -q else q))
    | none => none

/-- Python allows single underscores between digits of a literal; each
underscore must sit directly between two digits. -/
def underscoresOK (l : List Char) : Bool :=
  (List.range l.length).all (fun i =>
    (l.getD i ' ') ≠ '_' ∨
      (decide (0 < i) ∧ decide (i + 1 < l.length) ∧
        (l.getD (i - 1) ' ').isDigit ∧ (l.getD (i + 1) ' ').isDigit))

/-- Model of Python `float(str)`: strip whitespace, validate and drop
underscores, optional sign, then `inf`/`infinity`/`nan` (case-insensitive) or
a decimal literal with optional fraction and exponent.  Returns `none` where
Python raises `ValueError`. -/
def pyFloat? (s : String) : Option PyFloat :=
  let t := stripBoth isSpaceChar s.data
  if underscoresOK t then
    match t.filter (fun c => c ≠ '_') with
    | [] => parseUnsigned false []
    | c :: r =>
      if c = '+' then parseUnsigned false r
      else if c = '-' then parseUnsigned true r
      else parseUnsigned false (c :: r)
  else none

theorem count_eq_zero_of_all_digit (l : List Char) (h : l.all Char.isDigit = true) :
    l.count '.' = 0 := by
  rw [List.count_eq_zero]
  intro hc
  have := List.all_eq_true.mp h '.' hc
  simp at this

theorem count_takeWhile_ne (l : List Char) (c : Char) :
    (l.takeWhile (fun x => x ≠ c)).count c = 0 := by
  rw [List.count_eq_zero]
  intro hc
  have := List.mem_takeWhile_imp hc
  simp at this

theorem dropWhile_head_false (p : Char → Bool) :
    ∀ (l : List Char) (c : Char) (cs : List Char), l.dropWhile p = c :: cs → p c = false := by
  intro l
  induction l with
  | nil => intro c cs h; cases h
  | cons a as ih =>
    intro c cs h
    rw [List.dropWhile_cons] at h
    by_cases hp : p a
    · rw [if_pos hp] at h
      exact ih c cs h
    · rw [if_neg hp] at h
      cases h
      simpa using hp

theorem count_dot_cons_le (d : Char) (fp : List Char) (h : fp.count '.' = 0) :
    (d :: fp).count '.' ≤ 1 := by
  rcases List.count_cons '.' d fp with _
  rw [List.count_cons, h]
  split <;> omega

theorem parseMantissa_count (m : List Char) (q : ℚ) (h : parseMantissa m = some q) :
    m.count '.' ≤ 1 := by
  have hsplit : m.takeWhile (fun c => c ≠ '.') ++ m.dropWhile (fun c => c ≠ '.') = m :=
    List.takeWhile_append_dropWhile _ _
  have hcm : m.count '.' =
      (m.takeWhile (fun c => c ≠ '.')).count '.' + (m.dropWhile (fun c => c ≠ '.')).count '.' := by
    conv_lhs => rw [← hsplit]
    rw [List.count_append]
  rw [hcm, count_takeWhile_ne]
  cases hdrop : m.dropWhile (fun c => c ≠ '.') with
  | nil => simp [hdrop]
  | cons d fp =>
    simp only [parseMantissa, hdrop] at h
    split at h
    · rename_i hcond
      have hfp : fp.count '.' = 0 := count_eq_zero_of_all_digit fp hcond.2.2
      have := count_dot_cons_le d fp hfp
      omega
    · cases h

theorem parseExp_count (e : List Char) (z : ℤ) (h : parseExp e = some z) :
    e.count '.' = 0 := by
  cases e with
  | nil => cases h
  | cons c ds =>
    simp only [parseExp] at h
    by_cases hc : c = '+'
    · rw [if_pos hc] at h
      split at h
      · rename_i hcond
        have hds : ds.count '.' = 0 := count_eq_zero_of_all_digit ds hcond.2
        subst hc
        simp [List.count_cons, hds]
      · cases h
    · rw [if_neg hc] at h
      by_cases hc2 : c = '-'
      · rw [if_pos hc2] at h
        split at h
        · rename_i hcond
          have hds : ds.count '.' = 0 := count_eq_zero_of_all_digit ds hcond.2
          subst hc2
          simp [List.count_cons, hds]
        · cases h
      · rw [if_neg hc2] at h
        split at h
        · rename_i hcond
          exact count_eq_zero_of_all_digit _ hcond
        · cases h

theorem parseNumeric_count (u : List Char) (q : ℚ) (h : parseNumeric u = some q) :
    u.count '.' ≤ 1 := by
  have hsplit : u.takeWhile (fun c => c ≠ 'e' ∧ c ≠ 'E') ++
      u.dropWhile (fun c => c ≠ 'e' ∧ c ≠ 'E') = u :=
    List.takeWhile_append_dropWhile _ _
  have hcu : u.count '.' =
      (u.takeWhile (fun c => c ≠ 'e' ∧ c ≠ 'E')).count '.' +
      (u.dropWhile (fun c => c ≠ 'e' ∧ c ≠ 'E')).count '.' := by
    conv_lhs => rw [← hsplit]
    rw [List.count_append]
  cases hdrop : u.dropWhile (fun c => c ≠ 'e' ∧ c ≠ 'E') with
  | nil =>
    simp only [parseNumeric, hdrop] at h
    rw [hcu, hdrop]
    simpa using parseMantissa_count _ q h
  | cons d ex =>
    simp only [parseNumeric, hdrop] at h
    cases hm : parseMantissa (u.takeWhile (fun c => c ≠ 'e' ∧ c ≠ 'E')) with
    | none => rw [hm] at h; cases h
    | some qm =>
      cases hz : parseExp ex with
      | none => rw [hm, hz] at h; cases h
      | some z =>
        have hdp := dropWhile_head_false _ u d ex hdrop
        have hdE : d = 'e' ∨ d = 'E' := by
          by_contra hcon
          push_neg at hcon
          simp [hcon.1, hcon.2] at hdp
        have hd : ¬ ('.' : Char) = d := by
          rcases hdE with rfl | rfl <;> decide
        have hdcount : (d :: ex).count '.' = 0 := by
          simp [List.count_cons, parseExp_count ex z hz, hd]
        rw [hcu, hdrop, hdcount]
        simpa using parseMantissa_count _ qm hm

theorem parseUnsigned_count (neg : Bool) (r : List Char) (x : PyFloat)
    (h : parseUnsigned neg r = some x) : r.count '.' ≤ 1 := by
  have hlowdot : '.' ∈ r → ('.' : Char) ∈ r.map asciiLower := fun hc =>
    List.mem_map.mpr ⟨'.', hc, by decide⟩
  simp only [parseUnsigned] at h
  split at h
  · rename_i hcond
    have hnd : '.' ∉ r := by
      intro hc
      have hm := hlowdot hc
      rcases hcond with h1 | h1 <;> rw [h1] at hm <;> simp at hm
    rw [List.count_eq_zero.mpr hnd]
    omega
  · split at h
    · rename_i hcond
      have hnd : '.' ∉ r := by
        intro hc
        have hm := hlowdot hc
        rw [hcond] at hm
        simp at hm
      rw [List.count_eq_zero.mpr hnd]
      omega
    · cases hq : parseNumeric r with
      | none => rw [hq] at h; cases h
      | some q => exact parseNumeric_count r q hq

theorem count_dropWhile_eq (p : Char → Bool) (c : Char) (hc : p c = false) (l : List Char) :
    (l.dropWhile p).count c = l.count c := by
  have hsplit : l.takeWhile p ++ l.dropWhile p = l := List.takeWhile_append_dropWhile _ _
  have htake : (l.takeWhile p).count c = 0 := by
    rw [List.count_eq_zero]
    intro hm
    have := List.mem_takeWhile_imp hm
    rw [this] at hc
    cases hc
  conv_rhs => rw [← hsplit]
  rw [List.count_append, htake]
  omega

theorem count_stripBoth_eq (p : Char → Bool) (c : Char) (hc : p c = false) (l : List Char) :
    (stripBoth p l).count c = l.count c := by
  unfold stripBoth
  rw [List.count_reverse, count_dropWhile_eq p c hc, List.count_reverse,
    count_dropWhile_eq p c hc]

theorem count_filter_eq (p : Char → Bool) (c : Char) (hc : p c = true) (l : List Char) :
    (l.filter p).count c = l.count c := by
  induction l with
  | nil => rfl
  | cons a as ih =>
    by_cases hpa : p a
    · rw [List.filter_cons_of_pos hpa, List.count_cons, List.count_cons, ih]
    · rw [List.filter_cons_of_neg hpa, List.count_cons, ih]
      have hca : ¬ (c = a) := by
        intro h
        subst h
        rw [hc] at hpa
        exact hpa rfl
      have hac : ¬ (a = c) := fun h => hca h.symm
      simp [hca, hac]

theorem pyFloat?_count (s : String) (x : PyFloat) (h : pyFloat? s = some x) :
    s.data.count '.' ≤ 1 := by
  simp only [pyFloat?] at h
  split at h
  case isFalse => cases h
  case isTrue hu =>
    have hstrip : (stripBoth isSpaceChar s.data).count '.' = s.data.count '.' :=
      count_stripBoth_eq isSpaceChar '.' (by decide) s.data
    have hfil : ((stripBoth isSpaceChar s.data).filter (fun c => c ≠ '_')).count '.' =
        (stripBoth isSpaceChar s.data).count '.' :=
      count_filter_eq _ '.' (by decide) _
    rw [← hstrip, ← hfil]
    cases hm : (stripBoth isSpaceChar s.data).filter (fun c => c ≠ '_') with
    | nil => simp [hm]
    | cons c r =>
      rw [hm] at h
      simp only at h
      by_cases hplus : c = '+'
      · rw [if_pos hplus] at h
        have := parseUnsigned_count false r x h
        subst hplus
        simp [List.count_cons, this]
      · rw [if_neg hplus] at h
        by_cases hminus : c = '-'
        · rw [if_pos hminus] at h
          have := parseUnsigned_count true r x h
          subst hminus
          simp [List.count_cons, this]
        · rw [if_neg hminus] at h
          exact parseUnsigned_count false (c :: r) x h

theorem count_commaToDot (l : List Char) :
    (l.map (fun c => if c = ',' then '.' else c)).count '.' = l.count ',' + l.count '.' := by
  induction l with
  | nil => rfl
  | cons a as ih =>
    by_cases ha : a = ','
    · subst ha
      simp [List.count_cons, ih]
      omega
    · by_cases hd : a = '.'
      · subst hd
        simp [List.count_cons, ih]
        omega
      · have h1 : ¬ (('.' : Char) = a) := fun h => hd h.symm
        have h2 : ¬ ((',' : Char) = a) := fun h => ha h.symm
        simp [List.count_cons, ha, h1, h2, ih]

/-- Key behavioural fact behind claim C10: `str.replace(',', '.')` replaces
every comma, so a field with two or more commas can never parse as a float
(a Python float literal contains at most one dot). -/
theorem pyFloat?_commaToDot_none_of_two_commas (s : String) (h : 2 ≤ s.data.count ',') :
    pyFloat? (commaToDot s) = none := by
  cases hx : pyFloat? (commaToDot s) with
  | none => rfl
  | some x =>
    have hle := pyFloat?_count (commaToDot s) x hx
    have hcd : (commaToDot s).data.count '.' = s.data.count ',' + s.data.count '.' :=
      count_commaToDot s.data
    omega

/-- Fuel-indexed engine for Python `str.replace(pat, rep)`: the left-to-right,
non-overlapping scan CPython performs.  Each step consumes at least one
character, so fuel equal to the input length always suffices (the fuel is only
there to make the recursion structural). -/
def replAux (pat rep : List Char) : Nat → List Char → List Char
  | _, [] => []
  | 0, l => l
  | Nat.succ n, c :: cs =>
    if pat.isPrefixOf (c :: cs) ∧ pat ≠ [] then
      rep ++ replAux pat rep n (cs.drop (pat.length - 1))
    else c :: replAux pat rep n cs

/-- Python `s.replace(pat, rep)` for a nonempty pattern (the scripts only use
the literal patterns `"Australasian"` and `"National"`). -/
def pyReplace (s pat rep : String) : String :=
  ⟨replAux pat.data rep.data s.data.length s.data⟩

/-- Whether `pat` occurs as a contiguous sublist of `l`. -/
def hasOcc (pat : List Char) : List Char → Bool
  | [] => pat.isEmpty
  | c :: cs => pat.isPrefixOf (c :: cs) || hasOcc pat cs

theorem isPrefixOf_self_append (p r : List Char) : p.isPrefixOf (p ++ r) = true := by
  induction p with
  | nil => simp [List.isPrefixOf]
  | cons a as ih => simp [List.isPrefixOf, ih]

theorem replAux_no_occ (pat rep : List Char) :
    ∀ (n : Nat) (l : List Char), l.length ≤ n → hasOcc pat l = false →
      replAux pat rep n l = l := by
  intro n
  induction n with
  | zero =>
    intro l hl _
    cases l with
    | nil => rfl
    | cons c cs => simp at hl
  | succ n ih =>
    intro l hl hocc
    cases l with
    | nil => rfl
    | cons c cs =>
      simp only [hasOcc, Bool.or_eq_false_iff] at hocc
      simp only [replAux]
      rw [if_neg (by simp [hocc.1])]
      rw [ih cs (by simp at hl; omega) hocc.2]

theorem replAux_head_occ (pat rep : List Char) (hpat : pat ≠ []) :
    ∀ (n : Nat) (rest : List Char), (pat ++ rest).length ≤ n →
      hasOcc pat rest = false →
      replAux pat rep n (pat ++ rest) = rep ++ rest := by
  intro n rest hn hocc
  cases hp : pat with
  | nil => exact absurd hp hpat
  | cons p ps =>
    subst hp
    cases n with
    | zero => simp at hn
    | succ n =>
      show replAux (p :: ps) rep (n + 1) (p :: (ps ++ rest)) = rep ++ rest
      simp only [replAux]
      rw [if_pos ⟨isPrefixOf_self_append (p :: ps) rest, by simp⟩]
      have hdrop : (ps ++ rest).drop ((p :: ps).length - 1) = rest := by
        rw [show (p :: ps).length - 1 = ps.length by simp]
        exact List.drop_left _ _
      rw [hdrop]
      rw [replAux_no_occ (p :: ps) rep n rest (by simp at hn; omega) hocc]

/-- Python `(pat ++ rest).replace(pat, rep) = rep ++ rest` when `pat` does not
occur again in `rest`: with a single occurrence, replace-all coincides with
rewriting the leading occurrence. -/
theorem pyReplace_single_occ (pat rep rest : String) (hpat : pat.data ≠ [])
    (hocc : hasOcc pat.data rest.data = false) :
    pyReplace (pat ++ rest) pat rep = rep ++ rest := by
  unfold pyReplace
  have hdata : (pat ++ rest).data = pat.data ++ rest.data := String.data_append _ _
  rw [hdata]
  rw [replAux_head_occ pat.data rep.data hpat _ rest.data (le_refl _) hocc]
  apply String.ext
  rw [String.data_append]

/-- ABS table values: `{"abs": rank}`. -/
structure AbsVal where
  abs : String
deriving DecidableEq

/-- SJR table values: `{"sjr": float, "quartile": str}`. -/
structure SjrVal where
  sjr : PyFloat
  quartile : String
deriving DecidableEq

/-- Row of a `csv.DictReader` over the SJR file, restricted to the three
columns the script reads.  `none` models a missing value (`None` for a short
row, or a `KeyError` when the header lacks the column): in both cases the
the call `row[...].strip()` in the script raises. -/
structure SjrRow where
  title : Option String
  sjr : Option String
  quartile : Option String
deriving DecidableEq

def sjrField (o : Option String) : Except PyErr String :=
  match o with
  | some s => .ok s
  | none => .error .fieldError

/-- Row transform of `extract_abs.py` (lines 25-29):
`title = row[1].strip().lower(); rank = row[2].strip();`
`abs_dict[title] = {"abs": rank}`.  No guard, no exception handler. -/
def absStep (row : List String) : Except PyErr (Option (String × AbsVal)) := do
  let t ← pyIdx row 1
  let rk ← pyIdx row 2
  pure (some (pyLower (pyStrip t), ⟨pyStrip rk⟩))

/-- `extract_abs_rankings` of `extract_abs.py`: `next(reader)` skips the
header (raising `StopIteration` on an empty file), then every row is
processed by `absStep`.  File and JSON output effects are outside the
embedding. -/
def extract_abs_rankings (rows : List (List String)) :
    Except PyErr (List (String × AbsVal)) :=
  match rows with
  | [] => .error .stopIteration
  | _ :: body => runRows absStep body []

/-- Rank classification of `extract_full_core.py` (lines 34-49), applied to
the already-stripped 2023 and 2021 rank columns:
`primary_rank = rank_2023 if rank_2023 else rank_2021`, then the
`A*/A/B/C` edition format, the `Australasian`/`National` `str.replace`
rewrites, verbatim `TBR`, and silent exclusion otherwise. -/
def coreRankValue (r23 r21 : String) : Option String :=
  let primary := if r23 ≠ "" then r23 else r21
  if primary = "A*" ∨ primary = "A" ∨ primary = "B" ∨ primary = "C" then
    some (primary ++ " [" ++ (if r23 ≠ "" then ("2023") else ("2021")) ++ "]")
  else if pyStartsWith primary ("Australasian") then
    some (pyReplace primary ("Australasian") ("Au"))
  else if pyStartsWith primary ("National") then
    some (pyReplace primary ("National") ("Nat"))
  else if primary = "TBR" then some ("TBR")
  else none

/-- Row transform of `extract_full_core.py` (lines 25-49): rows with fewer
than 9 columns are skipped with a diagnostic, the conference name is
`row[1].strip()` (not lower-cased), empty names are skipped, and the rank
value is classified by `coreRankValue`. -/
def coreStep (row : List String) : Except PyErr (Option (String × String)) :=
  if row.length < 9 then .ok none
  else do
    let t ← pyIdx row 1
    let r23 ← pyIdx row 4
    let r21 ← pyIdx row 5
    let name := pyStrip t
    if name = "" then pure none
    else pure ((coreRankValue (pyStrip r23) (pyStrip r21)).map (fun v => (name, v)))

/-- `extract_full_core_rankings` of `extract_full_core.py`: no header line is
skipped; every CSV row goes through `coreStep`. -/
def extract_full_core_rankings (rows : List (List String)) :
    Except PyErr (List (String × String)) :=
  runRows coreStep rows []

/-- Row transform of `extract_sjr.py` (lines 22-37):
`title = row["Title"].strip().lower()` (quotes stripped first), `sjr_value = row["SJR"].strip()`,
`quartile = row["SJR Best Quartile"].strip()`; then
`float(sjr_value.replace(',', '.'))` guarded by `except ValueError` (skip with
warning), and `quartile if quartile else '-'`. -/
def sjrStep (row : SjrRow) : Except PyErr (Option (String × SjrVal)) := do
  let tRaw ← sjrField row.title
  let sRaw ← sjrField row.sjr
  let qRaw ← sjrField row.quartile
  let title := pyLower (pyStrip (pyStripQuote tRaw))
  let sv := pyStrip sRaw
  let q := pyStrip qRaw
  match pyFloat? (commaToDot sv) with
  | some f => pure (some (title, ⟨f, if q ≠ "" then q else ("-")⟩))
  | none => pure none

/-- `extract_sjr_rankings` of `extract_sjr.py`: the `csv.DictReader` consumes
the header itself, so every yielded row goes through `sjrStep`. -/
def extract_sjr_rankings (rows : List SjrRow) :
    Except PyErr (List (String × SjrVal)) :=
  runRows sjrStep rows []

/-- Total companion of `absStep`, meaningful on rows with at least 3 columns. -/
def absStepT (row : List String) : Option (String × AbsVal) :=
  some (pyLower (pyStrip (row.getD 1 (""))), ⟨pyStrip (row.getD 2 (""))⟩)

/-- Total companion of `coreStep` (which never raises). -/
def coreStepT (row : List String) : Option (String × String) :=
  if row.length < 9 then none
  else
    let name := pyStrip (row.getD 1 (""))
    if name = "" then none
    else (coreRankValue (pyStrip (row.getD 4 (""))) (pyStrip (row.getD 5 ("")))).map
      (fun v => (name, v))

/-- Total companion of `sjrStep`, meaningful on rows with all fields present. -/
def sjrStepT (row : SjrRow) : Option (String × SjrVal) :=
  let title := pyLower (pyStrip (pyStripQuote (row.title.getD (""))))
  let sv := pyStrip (row.sjr.getD (""))
  let q := pyStrip (row.quartile.getD (""))
  match pyFloat? (commaToDot sv) with
  | some f => some (title, ⟨f, if q ≠ "" then q else ("-")⟩)
  | none => none

theorem pyIdx_of_lt (r : List String) (i : Nat) (h : i < r.length) :
    pyIdx r i = .ok (r.getD i ("")) := by
  unfold pyIdx
  cases hg : r.get? i with
  | none =>
    rw [List.get?_eq_none] at hg
    omega
  | some s =>
    rw [List.getD_eq_getElem?_getD, ← List.get?_eq_getElem?, hg]
    rfl

theorem pyIdx_error_of_ge (r : List String) (i : Nat) (h : r.length ≤ i) :
    pyIdx r i = .error .indexError := by
  unfold pyIdx
  rw [List.get?_eq_none.mpr h]

theorem coreStep_eq_total (row : List String) : coreStep row = .ok (coreStepT row) := by
  unfold coreStep coreStepT
  by_cases h9 : row.length < 9
  · simp [h9]
  · rw [if_neg h9, if_neg h9]
    push_neg at h9
    rw [pyIdx_of_lt row 1 (by omega), pyIdx_of_lt row 4 (by omega),
      pyIdx_of_lt row 5 (by omega)]
    simp only [Bind.bind, Except.bind]
    split
    · rfl
    · rfl

theorem absStep_eq_total (row : List String) (h : 3 ≤ row.length) :
    absStep row = .ok (absStepT row) := by
  unfold absStep absStepT
  rw [pyIdx_of_lt row 1 (by omega), pyIdx_of_lt row 2 (by omega)]
  rfl

theorem absStep_error_of_short (row : List String) (h : row.length < 3) :
    absStep row = .error .indexError := by
  unfold absStep
  by_cases h1 : row.length ≤ 1
  · rw [pyIdx_error_of_ge row 1 h1]
    rfl
  · rw [pyIdx_of_lt row 1 (by omega), pyIdx_error_of_ge row 2 (by omega)]
    rfl

theorem sjrStep_eq_total (row : SjrRow) (ht : row.title ≠ none) (hs : row.sjr ≠ none)
    (hq : row.quartile ≠ none) : sjrStep row = .ok (sjrStepT row) := by
  obtain ⟨t, ht'⟩ := Option.ne_none_iff_exists'.mp ht
  obtain ⟨s, hs'⟩ := Option.ne_none_iff_exists'.mp hs
  obtain ⟨q, hq'⟩ := Option.ne_none_iff_exists'.mp hq
  unfold sjrStep sjrStepT
  rw [ht', hs', hq']
  simp only [sjrField, Bind.bind, Except.bind, Option.getD_some]
  cases hf : pyFloat? (commaToDot (pyStrip s)) <;> simp [hf, pure, Except.pure]

/-- One insertion step of sorting by title: keys are compared in code-point
lexicographic order on their character lists, which is the Python string
comparison. -/
def insSorted {V : Type} (p : String × V) : List (String × V) → List (String × V)
  | [] => [p]
  | q :: qs => if p.1.data ≤ q.1.data then p :: q :: qs else q :: insSorted p qs

/-- Model of Python `sorted(d.items())` for dicts with unique keys: sorting by
title.  (Python compares the `(title, data)` tuples, but with unique titles the
second components are never compared.) -/
def sortByKey {V : Type} (d : List (String × V)) : List (String × V) :=
  d.foldr insSorted []

theorem insSorted_perm {V : Type} (p : String × V) (l : List (String × V)) :
    (insSorted p l).Perm (p :: l) := by
  induction l with
  | nil => exact List.Perm.refl _
  | cons q qs ih =>
    by_cases h : p.1.data ≤ q.1.data
    · simp [insSorted, h]
    · simp only [insSorted, if_neg h]
      exact ((List.perm_cons q).mpr ih).trans (List.Perm.swap p q qs)

theorem sortByKey_perm {V : Type} (d : List (String × V)) : (sortByKey d).Perm d := by
  induction d with
  | nil => exact List.Perm.refl _
  | cons p ps ih =>
    exact (insSorted_perm p (sortByKey ps)).trans ((List.perm_cons p).mpr ih)

theorem insSorted_sorted {V : Type} (p : String × V) (l : List (String × V))
    (h : List.Sorted (fun a b : String × V => a.1.data ≤ b.1.data) l) :
    List.Sorted (fun a b : String × V => a.1.data ≤ b.1.data) (insSorted p l) := by
  induction l with
  | nil => simp [insSorted]
  | cons q qs ih =>
    rw [List.sorted_cons] at h
    by_cases hle : p.1.data ≤ q.1.data
    · simp only [insSorted, if_pos hle]
      rw [List.sorted_cons]
      refine ⟨?_, ?_⟩
      · intro b hb
        rcases List.mem_cons.mp hb with rfl | hb
        · exact hle
        · exact le_trans hle (h.1 b hb)
      · rw [List.sorted_cons]
        exact h
    · simp only [insSorted, if_neg hle]
      rw [List.sorted_cons]
      refine ⟨?_, ih h.2⟩
      intro b hb
      have hqp : q.1.data ≤ p.1.data := (le_total _ _).resolve_left hle
      rcases List.mem_cons.mp ((insSorted_perm p qs).mem_iff.mp hb) with rfl | hb'
      · exact hqp
      · exact h.1 b hb'

theorem sortByKey_sorted {V : Type} (d : List (String × V)) :
    List.Sorted (fun a b : String × V => a.1.data ≤ b.1.data) (sortByKey d) := by
  induction d with
  | nil => simp [sortByKey]
  | cons p ps ih => exact insSorted_sorted p (sortByKey ps) ih

theorem string_ext_of_data (a b : String) (h : a.data = b.data) : a = b := by
  cases a
  cases b
  rw [show String.mk _ = _ from rfl]
  exact congrArg String.mk h

/-- Sorting a unique-key dict depends only on its contents, not on insertion
order: two permuted tables sort to the same list. -/
theorem sortByKey_eq_of_perm {V : Type} (d₁ d₂ : List (String × V)) (hp : d₁.Perm d₂)
    (hnd : (dictKeys d₁).Nodup) : sortByKey d₁ = sortByKey d₂ := by
  have hnd₂ : (dictKeys d₂).Nodup := ((hp.map Prod.fst).nodup_iff).mp hnd
  haveI : IsAntisymm (String × V)
      (fun a b : String × V => a.1.data ≤ b.1.data ∧ a.1 ≠ b.1) := by
    constructor
    intro a b ha hb
    exact absurd (string_ext_of_data _ _ (le_antisymm ha.1 hb.1)) ha.2
  have hstrict : ∀ (d : List (String × V)), (dictKeys d).Nodup →
      List.Sorted (fun a b : String × V => a.1.data ≤ b.1.data ∧ a.1 ≠ b.1) (sortByKey d) := by
    intro d hd
    have h1 := sortByKey_sorted d
    have h2 : (dictKeys (sortByKey d)).Nodup :=
      (((sortByKey_perm d).map Prod.fst).nodup_iff).mpr hd
    have h3 : List.Pairwise (fun a b : String × V => a.1 ≠ b.1) (sortByKey d) := by
      have := (List.pairwise_map).mp h2
      exact this
    exact List.Pairwise.and h1 h3
  have hperm : (sortByKey d₁).Perm (sortByKey d₂) :=
    (sortByKey_perm d₁).trans (hp.trans (sortByKey_perm d₂).symm)
  exact List.eq_of_perm_of_sorted hperm (hstrict d₁ hnd) (hstrict d₂ hnd₂)

/-- Entry lines of the hand-written JavaScript emitters: the loop
`for i, (title, data) in enumerate(sorted(d.items()))` appends
`comma = ',' if i < len(d) - 1 else ''`, i.e. a comma on every line but the
last. -/
def jsLinesFrom {α : Type} (core : α → List Char) : List α → List (List Char)
  | [] => []
  | [p] => [core p]
  | p :: ps => (core p ++ [',']) :: jsLinesFrom core ps

/-- A file written line by line, every `f.write` ending in a newline. -/
def linesText (ls : List (List Char)) : List Char :=
  (ls.map (fun l => l ++ ['\n'])).flatten

/-- One entry line of `generate_javascript_dict` in `extract_abs.py`
(line 56): `    "{title}": {{abs: "{data["abs"]}"}}` — raw f-string
interpolation, no escaping of the title or value. -/
def absJsEntry (p : String × AbsVal) : List Char :=
  ("    \"").data ++ p.1.data ++ ("\": \x7babs: \"").data ++ p.2.abs.data ++ ['"', '\x7d']

/-- `generate_javascript_dict` of `extract_abs.py`, as the list of lines it
writes: header `var abs_rankings = {`, sorted entry lines, closing `};`. -/
def abs_generate_javascript_dict (d : List (String × AbsVal)) : List (List Char) :=
  ("var abs_rankings = \x7b").data :: (jsLinesFrom absJsEntry (sortByKey d) ++ [("\x7d;").data])

/-- Full text of `abs_rankings.js`. -/
def absJsText (d : List (String × AbsVal)) : List Char :=
  linesText (abs_generate_javascript_dict d)

/-- Abstraction of Python `repr(float)` used when the SJR script interpolates
`data["sjr"]`: the exact decimal rendering is not modelled (IEEE-754 shortest
round-trip); the properties proved about the artifact (key order, comma
placement) do not depend on it. -/
def showPyFloat : PyFloat → String
  | .finite q => toString q.num ++ "/" ++ toString q.den
  | .inf b => if b then ("-inf") else ("inf")
  | .nan => ("nan")

/-- One entry line of `generate_javascript_dict` in `extract_sjr.py`
(line 61): `    "{title}": {{sjr: {data["sjr"]}, quartile: "{data["quartile"]}"}}`. -/
def sjrJsEntry (p : String × SjrVal) : List Char :=
  ("    \"").data ++ p.1.data ++ ("\": \x7bsjr: ").data ++ (showPyFloat p.2.sjr).data ++
    (", quartile: \"").data ++ p.2.quartile.data ++ ['"', '\x7d']

/-- `generate_javascript_dict` of `extract_sjr.py`, as the list of lines it
writes. -/
def sjr_generate_javascript_dict (d : List (String × SjrVal)) : List (List Char) :=
  ("var sjr_rankings = \x7b").data :: (jsLinesFrom sjrJsEntry (sortByKey d) ++ [("\x7d;").data])

/-- Full text of `sjr_rankings.js`. -/
def sjrJsText (d : List (String × SjrVal)) : List Char :=
  linesText (sjr_generate_javascript_dict d)

def hexDigit (n : Nat) : Char :=
  if n < 10 then Char.ofNat (48 + n) else Char.ofNat (87 + n)

/-- JSON string escaping as performed by `json.dump(..., ensure_ascii=False)`:
quote, backslash and control characters are escaped, everything else is
emitted literally. -/
def jsonEscapeChar (c : Char) : List Char :=
  if c = '"' then ['\\', '"']
  else if c = '\\' then ['\\', '\\']
  else if c = '\n' then ['\\', 'n']
  else if c = '\t' then ['\\', 't']
  else if c = '\r' then ['\\', 'r']
  else if c = '\x08' then ['\\', 'b']
  else if c = '\x0c' then ['\\', 'f']
  else if c.toNat < 32 then ['\\', 'u', '0', '0', hexDigit (c.toNat / 16), hexDigit (c.toNat % 16)]
  else [c]

def jsonEscape (l : List Char) : List Char := (l.map jsonEscapeChar).flatten

def jsonStrLit (s : String) : List Char := '"' :: (jsonEscape s.data ++ ['"'])

/-- The three lines `json.dump(..., indent=2)` produces for one ABS entry:
`  "title": {` / `    "abs": "rank"` / `  }` with a trailing comma on the
closing line of every entry except the last (`,\n`-joined blocks). -/
def absJsonEntryLines (p : String × AbsVal) (comma : Bool) : List (List Char) :=
  [("  ").data ++ (jsonStrLit p.1 ++ ((": ").data ++ ['\x7b'])),
   ("    ").data ++ (jsonStrLit ("abs") ++ ((": ").data ++ jsonStrLit p.2.abs)),
   ("  ").data ++ ('\x7d' :: (if comma then [','] else []))]

def absJsonBody : List (String × AbsVal) → List (List Char)
  | [] => [['\x7d']]
  | [p] => absJsonEntryLines p false ++ [['\x7d']]
  | p :: ps => absJsonEntryLines p true ++ absJsonBody ps

/-- Lines of `json.dump(abs_dict, f, indent=2, ensure_ascii=False)` in
`extract_abs.py`: entries in insertion order; `{}` for the empty dict. -/
def absJsonLines (d : List (String × AbsVal)) : List (List Char) :=
  match d with
  | [] => [['\x7b', '\x7d']]
  | _ => ['\x7b'] :: absJsonBody d

/-- Newline-joined text, with no trailing newline (`json.dump` emits none). -/
def interLines : List (List Char) → List Char
  | [] => []
  | [l] => l
  | l :: ls => l ++ '\n' :: interLines ls

/-- Full text of `abs_rankings.json`. -/
def absJsonText (d : List (String × AbsVal)) : List Char := interLines (absJsonLines d)

/-- One line of `json.dump(core_rankings, ..., indent=2)`: `  "name": "rank"`
plus a comma on every entry but the last. -/
def coreJsonEntryLine (p : String × String) (comma : Bool) : List Char :=
  ("  ").data ++ (jsonStrLit p.1 ++ ((": ").data ++
    (jsonStrLit p.2 ++ (if comma then [','] else []))))

def coreJsonBody : List (String × String) → List (List Char)
  | [] => [['\x7d']]
  | [p] => [coreJsonEntryLine p false, ['\x7d']]
  | p :: ps => coreJsonEntryLine p true :: coreJsonBody ps

/-- Lines of `json.dump(core_rankings, f, indent=2, ensure_ascii=False)`:
entries in the insertion order of the dict (no `sort_keys`). -/
def coreJsonLines (d : List (String × String)) : List (List Char) :=
  match d with
  | [] => [['\x7b', '\x7d']]
  | _ => ['\x7b'] :: coreJsonBody d

/-- Full text of `core_rankings.json`. -/
def coreJsonText (d : List (String × String)) : List Char := interLines (coreJsonLines d)

/-- Full text of `core_rankings.js` (`extract_full_core.py` lines 68-71):
`var coreRankings = ` followed by the same `json.dump` output and `;\n` —
entries stay in insertion order, unlike the hand-written ABS/SJR emitters. -/
def coreJsText (d : List (String × String)) : List Char :=
  ("var coreRankings = ").data ++ (coreJsonText d ++ ((";").data ++ ['\n']))

/-- Split the text of a file at newlines (inverse of joining; a trailing newline
yields a final empty segment). -/
def splitLines : List Char → List (List Char)
  | [] => [[]]
  | c :: cs =>
    if c = '\n' then [] :: splitLines cs
    else
      match splitLines cs with
      | [] => [[c]]
      | a :: as => (c :: a) :: as

/-- Consume an expected literal piece of the artifact grammar. -/
def expectPrefixL (pat l : List Char) : Option (List Char) :=
  if pat.isPrefixOf l then some (l.drop pat.length) else none

/-- JSON short escapes (the decoder only needs the escapes `json.dump`
emits; `\uXXXX` escapes do not occur for the data considered here). -/
def unescChar (c : Char) : Option Char :=
  if c = '"' then some '"'
  else if c = '\\' then some '\\'
  else if c = '/' then some '/'
  else if c = 'n' then some '\n'
  else if c = 't' then some '\t'
  else if c = 'r' then some '\r'
  else if c = 'b' then some '\x08'
  else if c = 'f' then some '\x0c'
  else none

/-- Read a quoted-string body up to the next unescaped `"`, undoing JSON
escapes; returns the decoded content and the rest of the line. -/
def parseQuoted : List Char → Option (List Char × List Char)
  | [] => none
  | c :: cs =>
    if c = '"' then some ([], cs)
    else if c = '\\' then
      match cs with
      | [] => none
      | e :: es =>
        match unescChar e, parseQuoted es with
        | some u, some (s, r) => some (u :: s, r)
        | _, _ => none
    else
      match parseQuoted cs with
      | some (s, r) => some (c :: s, r)
      | none => none

/-- Decode the key line `  "title": {` of the ABS JSON artifact. -/
def decAbsKeyLine (l : List Char) : Option String :=
  match expectPrefixL (("  ").data ++ ['"']) l with
  | none => none
  | some r =>
    match parseQuoted r with
    | none => none
    | some (kd, r1) => if r1 = (": ").data ++ ['\x7b'] then some ⟨kd⟩ else none

/-- Decode the value line `    "abs": "rank"` of the ABS JSON artifact. -/
def decAbsValLine (l : List Char) : Option String :=
  match expectPrefixL (("    ").data ++ ('"' :: (("abs").data ++ ('"' :: ((": ").data ++ ['"']))))) l with
  | none => none
  | some r =>
    match parseQuoted r with
    | none => none
    | some (vd, r1) => if r1 = ([] : List Char) then some ⟨vd⟩ else none

/-- Decode the entry blocks of the ABS JSON artifact (three lines per entry,
comma after every block but the last, then the closing `}`). -/
def decAbsEntries : List (List Char) → Option (List (String × AbsVal))
  | [] => none
  | l :: rest =>
    if l = ['\x7d'] then
      match rest with
      | [] => some []
      | _ => none
    else
      match rest with
      | l2 :: l3 :: rest' =>
        match decAbsKeyLine l, decAbsValLine l2 with
        | some k, some v =>
          if l3 = ("  ").data ++ ['\x7d', ','] then
            match decAbsEntries rest' with
            | some tl => some ((k, ⟨v⟩) :: tl)
            | none => none
          else if l3 = ("  ").data ++ ['\x7d'] then
            match rest' with
            | [lc] => if lc = ['\x7d'] then some [(k, ⟨v⟩)] else none
            | _ => none
          else none
        | _, _ => none
      | _ => none

/-- Decode `abs_rankings.json` back to its entry list. -/
def decodeAbsJson (text : List Char) : Option (List (String × AbsVal)) :=
  match splitLines text with
  | [] => none
  | l0 :: rest =>
    if l0 = ['\x7b', '\x7d'] then (if rest = ([] : List (List Char)) then some [] else none)
    else if l0 = ['\x7b'] then decAbsEntries rest
    else none

/-- Decode one entry line of `abs_rankings.js`, reporting whether it carried a
trailing comma.  The reader of the script artifact sees no escaping (the
writer interpolates raw strings), so the first `"` ends the title. -/
def decJsEntryLine (l : List Char) : Option ((String × AbsVal) × Bool) :=
  match expectPrefixL (("    \"").data) l with
  | none => none
  | some r =>
    match parseQuoted r with
    | none => none
    | some (kd, r1) =>
      match expectPrefixL ((": \x7babs: ").data ++ ['"']) r1 with
      | none => none
      | some r2 =>
        match parseQuoted r2 with
        | none => none
        | some (vd, r3) =>
          if r3 = ['\x7d'] then some ((⟨kd⟩, ⟨⟨vd⟩⟩), false)
          else if r3 = ['\x7d', ','] then some ((⟨kd⟩, ⟨⟨vd⟩⟩), true)
          else none

/-- Decode the lines of `abs_rankings.js` after the header: entry lines, the
closing `};` and the final empty segment from the trailing newline. -/
def decJsLines : List (List Char) → Option (List (String × AbsVal))
  | [] => none
  | l :: rest =>
    if l = ("\x7d;").data then
      match rest with
      | [le] => if le = ([] : List Char) then some [] else none
      | _ => none
    else
      match decJsEntryLine l with
      | none => none
      | some (p, true) =>
        match decJsLines rest with
        | some tl => some (p :: tl)
        | none => none
      | some (p, false) =>
        match rest with
        | [lc, le] => if lc = ("\x7d;").data ∧ le = ([] : List Char) then some [p] else none
        | _ => none

/-- Decode `abs_rankings.js` back to its entry list. -/
def decodeAbsJs (text : List Char) : Option (List (String × AbsVal)) :=
  match splitLines text with
  | l0 :: rest => if l0 = ("var abs_rankings = \x7b").data then decJsLines rest else none
  | [] => none

/-- Decode one entry line `  "name": "rank"` of the CORE JSON artifact. -/
def decCoreEntryLine (l : List Char) : Option ((String × String) × Bool) :=
  match expectPrefixL (("  ").data ++ ['"']) l with
  | none => none
  | some r =>
    match parseQuoted r with
    | none => none
    | some (kd, r1) =>
      match expectPrefixL ((": ").data ++ ['"']) r1 with
      | none => none
      | some r2 =>
        match parseQuoted r2 with
        | none => none
        | some (vd, r3) =>
          if r3 = ([] : List Char) then some ((⟨kd⟩, ⟨vd⟩), false)
          else if r3 = [','] then some ((⟨kd⟩, ⟨vd⟩), true)
          else none

/-- Decode the entry lines of the CORE JSON artifact. -/
def decCoreEntries : List (List Char) → Option (List (String × String))
  | [] => none
  | l :: rest =>
    if l = ['\x7d'] then
      match rest with
      | [] => some []
      | _ => none
    else
      match decCoreEntryLine l with
      | none => none
      | some (p, true) =>
        match decCoreEntries rest with
        | some tl => some (p :: tl)
        | none => none
      | some (p, false) =>
        match rest with
        | [lc] => if lc = ['\x7d'] then some [p] else none
        | _ => none

/-- Decode `core_rankings.json` back to its entry list. -/
def decodeCoreJson (text : List Char) : Option (List (String × String)) :=
  match splitLines text with
  | [] => none
  | l0 :: rest =>
    if l0 = ['\x7b', '\x7d'] then (if rest = ([] : List (List Char)) then some [] else none)
    else if l0 = ['\x7b'] then decCoreEntries rest
    else none

/-- Remove an expected suffix. -/
def dropSuffixL (suf l : List Char) : Option (List Char) :=
  (expectPrefixL suf.reverse l.reverse).map List.reverse

/-- Decode `core_rankings.js`: strip the `var coreRankings = ` header and the
`;` plus newline tail, then read the embedded JSON text. -/
def decodeCoreJs (text : List Char) : Option (List (String × String)) :=
  match expectPrefixL (("var coreRankings = ").data) text with
  | none => none
  | some r =>
    match dropSuffixL ((";").data ++ ['\n']) r with
    | none => none
    | some m => decodeCoreJson m

/-- Characters needing no JSON escaping and no line structure: printable,
not `"`, not `\`.  For tables whose keys and values consist of these, the
JSON and script artifacts are loss-free. -/
def safeChar (c : Char) : Bool := 32 ≤ c.toNat ∧ c ≠ '"' ∧ c ≠ '\\'

def safeStr (s : String) : Bool := s.data.all safeChar

theorem expectPrefixL_append (pat r : List Char) : expectPrefixL pat (pat ++ r) = some r := by
  unfold expectPrefixL
  rw [if_pos (isPrefixOf_self_append pat r)]
  rw [List.drop_left]

theorem expectPrefixL_congr (pat l l' : List Char) (h : l = pat ++ l') :
    expectPrefixL pat l = some l' := by
  rw [h]
  exact expectPrefixL_append pat l'

theorem dropSuffixL_append (a suf : List Char) : dropSuffixL suf (a ++ suf) = some a := by
  unfold dropSuffixL
  rw [List.reverse_append, expectPrefixL_append]
  simp

theorem safeStr_forall (s : String) (h : safeStr s = true) : ∀ c ∈ s.data, safeChar c = true := by
  simp only [safeStr, List.all_eq_true] at h
  exact h

theorem safeChar_parts (c : Char) (h : safeChar c = true) :
    32 ≤ c.toNat ∧ c ≠ '"' ∧ c ≠ '\\' := by
  simpa [safeChar] using of_decide_eq_true h

theorem parseQuoted_safe (content : List Char) (h : ∀ c ∈ content, safeChar c = true)
    (rest : List Char) : parseQuoted (content ++ ('"' :: rest)) = some (content, rest) := by
  induction content generalizing rest with
  | nil =>
    rw [List.nil_append, parseQuoted.eq_def]
    simp
  | cons c cs ih =>
    obtain ⟨h1, h2, h3⟩ := safeChar_parts c (h c (List.mem_cons_self c cs))
    rw [List.cons_append, parseQuoted.eq_def]
    simp only []
    rw [if_neg h2, if_neg h3]
    rw [ih (fun x hx => h x (List.mem_cons_of_mem c hx))]

theorem jsonEscapeChar_safe (c : Char) (h : safeChar c = true) : jsonEscapeChar c = [c] := by
  obtain ⟨h1, h2, h3⟩ := safeChar_parts c h
  unfold jsonEscapeChar
  rw [if_neg h2, if_neg h3]
  rw [if_neg (show ¬ c = '\n' by intro hh; subst hh; exact absurd h1 (by decide))]
  rw [if_neg (show ¬ c = '\t' by intro hh; subst hh; exact absurd h1 (by decide))]
  rw [if_neg (show ¬ c = '\r' by intro hh; subst hh; exact absurd h1 (by decide))]
  rw [if_neg (show ¬ c = '\x08' by intro hh; subst hh; exact absurd h1 (by decide))]
  rw [if_neg (show ¬ c = '\x0c' by intro hh; subst hh; exact absurd h1 (by decide))]
  rw [if_neg (show ¬ c.toNat < 32 by omega)]

theorem jsonEscape_safe : ∀ (l : List Char), (∀ c ∈ l, safeChar c = true) → jsonEscape l = l
  | [], _ => rfl
  | c :: cs, h => by
    show jsonEscapeChar c ++ jsonEscape cs = c :: cs
    rw [jsonEscapeChar_safe c (h c (List.mem_cons_self c cs)),
      jsonEscape_safe cs (fun x hx => h x (List.mem_cons_of_mem c hx))]
    rfl

theorem splitLines_no_nl (a : List Char) (h : '\n' ∉ a) : splitLines a = [a] := by
  induction a with
  | nil => rfl
  | cons c cs ih =>
    have hc : ¬ c = '\n' := fun hh => h (hh ▸ List.mem_cons_self c cs)
    simp only [splitLines, if_neg hc]
    rw [ih (fun hm => h (List.mem_cons_of_mem c hm))]

theorem splitLines_append_nl (a rest : List Char) (h : '\n' ∉ a) :
    splitLines (a ++ '\n' :: rest) = a :: splitLines rest := by
  induction a with
  | nil => simp [splitLines]
  | cons c cs ih =>
    have hc : ¬ c = '\n' := fun hh => h (hh ▸ List.mem_cons_self c cs)
    rw [List.cons_append]
    simp only [splitLines, if_neg hc]
    rw [ih (fun hm => h (List.mem_cons_of_mem c hm))]

theorem splitLines_interLines (ls : List (List Char)) (hne : ls ≠ [])
    (h : ∀ l ∈ ls, '\n' ∉ l) : splitLines (interLines ls) = ls := by
  induction ls with
  | nil => exact absurd rfl hne
  | cons l ls' ih =>
    cases ls' with
    | nil => exact splitLines_no_nl l (h l (by simp))
    | cons l2 ls'' =>
      show splitLines (l ++ '\n' :: interLines (l2 :: ls'')) = l :: (l2 :: ls'')
      rw [splitLines_append_nl l _ (h l (by simp))]
      rw [ih (by simp) (fun x hx => h x (List.mem_cons_of_mem l hx))]

theorem splitLines_linesText (ls : List (List Char)) (h : ∀ l ∈ ls, '\n' ∉ l) :
    splitLines (linesText ls) = ls ++ [[]] := by
  induction ls with
  | nil => rfl
  | cons l ls' ih =>
    have hstep : linesText (l :: ls') = l ++ '\n' :: linesText ls' := by
      show ((l ++ ['\n']) :: (ls'.map fun x => x ++ ['\n'])).flatten = _
      rw [List.flatten_cons]
      simp [linesText]
    rw [hstep, splitLines_append_nl l _ (h l (by simp))]
    rw [ih (fun x hx => h x (List.mem_cons_of_mem l hx))]
    rfl

theorem no_nl_of_safe (s : String) (h : safeStr s = true) : '\n' ∉ s.data := by
  intro hm
  have h1 := (safeChar_parts '\n' (safeStr_forall s h '\n' hm)).1
  exact absurd h1 (by decide)

/-- Safety of an ABS table: titles and rank strings consist of printable
characters other than `"` and backslash. -/
def SafeAbs (d : List (String × AbsVal)) : Prop :=
  ∀ p ∈ d, safeStr p.1 = true ∧ safeStr p.2.abs = true

/-- Safety of a CORE table. -/
def SafeCore (d : List (String × String)) : Prop :=
  ∀ p ∈ d, safeStr p.1 = true ∧ safeStr p.2 = true

theorem mk_data_eta (s : String) : String.mk s.data = s := rfl

theorem absVal_eta (v : AbsVal) : AbsVal.mk v.abs = v := rfl

theorem jsonEscapeAbs : jsonEscape ['a', 'b', 's'] = ['a', 'b', 's'] := by decide

theorem decJsEntryLine_enc_last (p : String × AbsVal) (hk : safeStr p.1 = true)
    (hv : safeStr p.2.abs = true) : decJsEntryLine (absJsEntry p) = some (p, false) := by
  have hks := safeStr_forall _ hk
  have hvs := safeStr_forall _ hv
  simp [decJsEntryLine, absJsEntry, expectPrefixL, List.isPrefixOf,
    parseQuoted_safe _ hks, parseQuoted_safe _ hvs, mk_data_eta, absVal_eta]

theorem decJsEntryLine_enc_comma (p : String × AbsVal) (hk : safeStr p.1 = true)
    (hv : safeStr p.2.abs = true) : decJsEntryLine (absJsEntry p ++ [',']) = some (p, true) := by
  have hks := safeStr_forall _ hk
  have hvs := safeStr_forall _ hv
  simp [decJsEntryLine, absJsEntry, expectPrefixL, List.isPrefixOf,
    parseQuoted_safe _ hks, parseQuoted_safe _ hvs, mk_data_eta, absVal_eta]

theorem absJsEntry_ne_closer (p : String × AbsVal) : ¬ (absJsEntry p = ("\x7d;").data) := by
  simp [absJsEntry]

theorem absJsEntry_comma_ne_closer (p : String × AbsVal) :
    ¬ (absJsEntry p ++ [','] = ("\x7d;").data) := by
  simp [absJsEntry]

theorem decJsLines_enc : ∀ (es : List (String × AbsVal)), SafeAbs es →
    decJsLines (jsLinesFrom absJsEntry es ++ [("\x7d;").data, []]) = some es := by
  intro es
  induction es with
  | nil => intro _; simp [jsLinesFrom, decJsLines]
  | cons p ps ih =>
    intro hsafe
    obtain ⟨hk, hv⟩ := hsafe p (List.mem_cons_self p ps)
    cases ps with
    | nil =>
      show decJsLines ([absJsEntry p] ++ [("\x7d;").data, []]) = some [p]
      rw [List.cons_append, List.nil_append]
      simp only [decJsLines, if_neg (absJsEntry_ne_closer p),
        decJsEntryLine_enc_last p hk hv]
      simp
    | cons q qs =>
      show decJsLines ((absJsEntry p ++ [',']) ::
        (jsLinesFrom absJsEntry (q :: qs) ++ [("\x7d;").data, []])) = some (p :: q :: qs)
      simp only [decJsLines, if_neg (absJsEntry_comma_ne_closer p),
        decJsEntryLine_enc_comma p hk hv,
        ih (fun x hx => hsafe x (List.mem_cons_of_mem p hx))]

theorem decAbsKeyLine_enc (k : String) (hk : safeStr k = true) :
    decAbsKeyLine (' ' :: ' ' :: (jsonStrLit k ++ [':', ' ', '\x7b'])) = some k := by
  have hks := safeStr_forall _ hk
  simp [decAbsKeyLine, jsonStrLit, jsonEscape_safe k.data hks, expectPrefixL, List.isPrefixOf,
    parseQuoted_safe _ hks, mk_data_eta]

theorem decAbsValLine_enc (v : String) (hv : safeStr v = true) :
    decAbsValLine (' ' :: ' ' :: ' ' :: ' ' ::
      (jsonStrLit ("abs") ++ (':' :: ' ' :: jsonStrLit v))) = some v := by
  have hvs := safeStr_forall _ hv
  simp [decAbsValLine, jsonStrLit, jsonEscapeAbs, jsonEscape_safe v.data hvs, expectPrefixL,
    List.isPrefixOf, parseQuoted_safe _ hvs, mk_data_eta]

theorem decAbsEntries_enc : ∀ (es : List (String × AbsVal)), es ≠ [] → SafeAbs es →
    decAbsEntries (absJsonBody es) = some es := by
  intro es
  induction es with
  | nil => intro h _; exact absurd rfl h
  | cons p ps ih =>
    intro _ hsafe
    obtain ⟨hk, hv⟩ := hsafe p (List.mem_cons_self p ps)
    cases ps with
    | nil =>
      show decAbsEntries (absJsonEntryLines p false ++ [['\x7d']]) = some [p]
      simp [absJsonEntryLines, decAbsEntries, decAbsKeyLine_enc p.1 hk,
        decAbsValLine_enc p.2.abs hv, absVal_eta]
    | cons q qs =>
      show decAbsEntries (absJsonEntryLines p true ++ absJsonBody (q :: qs)) =
        some (p :: q :: qs)
      simp [absJsonEntryLines, decAbsEntries, decAbsKeyLine_enc p.1 hk,
        decAbsValLine_enc p.2.abs hv,
        ih (by simp) (fun x hx => hsafe x (List.mem_cons_of_mem p hx)), absVal_eta]

theorem no_nl_jsonStrLit (s : String) (hs : safeStr s = true) : '\n' ∉ jsonStrLit s := by
  rw [jsonStrLit, jsonEscape_safe s.data (safeStr_forall s hs)]
  intro hm
  rcases List.mem_cons.mp hm with h | h
  · exact absurd h (by decide)
  · rcases List.mem_append.mp h with h | h
    · exact no_nl_of_safe s hs h
    · simp at h

theorem no_nl_absJsonEntryLines (p : String × AbsVal) (c : Bool) (hk : safeStr p.1 = true)
    (hv : safeStr p.2.abs = true) : ∀ l ∈ absJsonEntryLines p c, '\n' ∉ l := by
  intro l hl
  rcases List.mem_cons.mp hl with rfl | hl
  · intro hm
    rcases List.mem_append.mp hm with h | h
    · simp at h
    · rcases List.mem_append.mp h with h | h
      · exact no_nl_jsonStrLit p.1 hk h
      · simp at h
  · rcases List.mem_cons.mp hl with rfl | hl
    · intro hm
      rcases List.mem_append.mp hm with h | h
      · simp at h
      · rcases List.mem_append.mp h with h | h
        · exact no_nl_jsonStrLit ("abs") (by decide) h
        · rcases List.mem_append.mp h with h | h
          · simp at h
          · exact no_nl_jsonStrLit p.2.abs hv h
    · rcases List.mem_cons.mp hl with rfl | hl
      · cases c <;> decide
      · simp at hl

theorem no_nl_absJsonBody : ∀ (es : List (String × AbsVal)), SafeAbs es →
    ∀ l ∈ absJsonBody es, '\n' ∉ l := by
  intro es
  induction es with
  | nil =>
    intro _ l hl
    rw [show absJsonBody [] = [[ '\x7d' ]] from rfl] at hl
    rcases List.mem_cons.mp hl with rfl | hl
    · decide
    · simp at hl
  | cons p ps ih =>
    intro hsafe l hl
    obtain ⟨hk, hv⟩ := hsafe p (List.mem_cons_self p ps)
    cases ps with
    | nil =>
      rw [show absJsonBody [p] = absJsonEntryLines p false ++ [['\x7d']] from rfl] at hl
      rcases List.mem_append.mp hl with hl | hl
      · exact no_nl_absJsonEntryLines p false hk hv l hl
      · rcases List.mem_cons.mp hl with rfl | hl
        · decide
        · simp at hl
    | cons q qs =>
      rw [show absJsonBody (p :: q :: qs) =
        absJsonEntryLines p true ++ absJsonBody (q :: qs) from rfl] at hl
      rcases List.mem_append.mp hl with hl | hl
      · exact no_nl_absJsonEntryLines p true hk hv l hl
      · exact ih (fun x hx => hsafe x (List.mem_cons_of_mem p hx)) l hl

theorem decodeAbsJson_enc (d : List (String × AbsVal)) (hsafe : SafeAbs d) :
    decodeAbsJson (absJsonText d) = some d := by
  cases d with
  | nil => decide
  | cons p ps =>
    have hlines : splitLines (absJsonText (p :: ps)) = ['\x7b'] :: absJsonBody (p :: ps) := by
      apply splitLines_interLines
      · simp [absJsonLines]
      · intro l hl
        rcases List.mem_cons.mp hl with rfl | hl
        · decide
        · exact no_nl_absJsonBody (p :: ps) hsafe l hl
    unfold decodeAbsJson
    rw [hlines]
    simp only []
    rw [if_neg (by decide), if_pos trivial]
    exact decAbsEntries_enc (p :: ps) (by simp) hsafe

theorem no_nl_absJsEntry (p : String × AbsVal) (hk : safeStr p.1 = true)
    (hv : safeStr p.2.abs = true) (c : Bool) :
    '\n' ∉ absJsEntry p ++ (if c then [','] else []) := by
  intro hm
  rcases List.mem_append.mp hm with h | h
  · rw [absJsEntry] at h
    rcases List.mem_append.mp h with h | h
    · rcases List.mem_append.mp h with h | h
      · rcases List.mem_append.mp h with h | h
        · rcases List.mem_append.mp h with h | h
          · simp at h
          · exact no_nl_of_safe p.1 hk h
        · simp at h
      · exact no_nl_of_safe p.2.abs hv h
    · simp at h
  · cases c <;> simp_all

theorem no_nl_jsLinesFrom : ∀ (es : List (String × AbsVal)), SafeAbs es →
    ∀ l ∈ jsLinesFrom absJsEntry es, '\n' ∉ l := by
  intro es
  induction es with
  | nil => intro _ l hl; simp [jsLinesFrom] at hl
  | cons p ps ih =>
    intro hsafe l hl
    obtain ⟨hk, hv⟩ := hsafe p (List.mem_cons_self p ps)
    cases ps with
    | nil =>
      rw [show jsLinesFrom absJsEntry [p] = [absJsEntry p] from rfl] at hl
      rcases List.mem_cons.mp hl with rfl | hl
      · have := no_nl_absJsEntry p hk hv false
        simpa using this
      · simp at hl
    | cons q qs =>
      rw [show jsLinesFrom absJsEntry (p :: q :: qs) =
        (absJsEntry p ++ [',']) :: jsLinesFrom absJsEntry (q :: qs) from rfl] at hl
      rcases List.mem_cons.mp hl with rfl | hl
      · have := no_nl_absJsEntry p hk hv true
        simpa using this
      · exact ih (fun x hx => hsafe x (List.mem_cons_of_mem p hx)) l hl

theorem safeAbs_sortByKey (d : List (String × AbsVal)) (h : SafeAbs d) :
    SafeAbs (sortByKey d) :=
  fun p hp => h p ((sortByKey_perm d).mem_iff.mp hp)

theorem decodeAbsJs_enc (d : List (String × AbsVal)) (hsafe : SafeAbs d) :
    decodeAbsJs (absJsText d) = some (sortByKey d) := by
  have hsafe' : SafeAbs (sortByKey d) := safeAbs_sortByKey d hsafe
  have hlines : splitLines (absJsText d) =
      (("var abs_rankings = \x7b").data :: (jsLinesFrom absJsEntry (sortByKey d) ++
        [("\x7d;").data])) ++ [[]] := by
    apply splitLines_linesText
    intro l hl
    rcases List.mem_cons.mp hl with rfl | hl
    · decide
    · rcases List.mem_append.mp hl with hl | hl
      · exact no_nl_jsLinesFrom (sortByKey d) hsafe' l hl
      · rcases List.mem_cons.mp hl with rfl | hl
        · decide
        · simp at hl
    
  unfold decodeAbsJs
  rw [hlines]
  simp only [List.cons_append]
  rw [if_pos trivial]
  show decJsLines (jsLinesFrom absJsEntry (sortByKey d) ++ [("\x7d;").data] ++ [[]]) =
    some (sortByKey d)
  rw [List.append_assoc]
  exact decJsLines_enc (sortByKey d) hsafe'

theorem decCoreEntryLine_enc_last (k v : String) (hk : safeStr k = true)
    (hv : safeStr v = true) :
    decCoreEntryLine (' ' :: ' ' :: (jsonStrLit k ++ (':' :: ' ' :: jsonStrLit v))) =
      some ((k, v), false) := by
  have hks := safeStr_forall _ hk
  have hvs := safeStr_forall _ hv
  simp [decCoreEntryLine, jsonStrLit, jsonEscape_safe k.data hks, jsonEscape_safe v.data hvs,
    expectPrefixL, List.isPrefixOf, parseQuoted_safe _ hks, parseQuoted_safe _ hvs, mk_data_eta]

theorem decCoreEntryLine_enc_comma (k v : String) (hk : safeStr k = true)
    (hv : safeStr v = true) :
    decCoreEntryLine (' ' :: ' ' :: (jsonStrLit k ++ (':' :: ' ' :: (jsonStrLit v ++ [','])))) =
      some ((k, v), true) := by
  have hks := safeStr_forall _ hk
  have hvs := safeStr_forall _ hv
  simp [decCoreEntryLine, jsonStrLit, jsonEscape_safe k.data hks, jsonEscape_safe v.data hvs,
    expectPrefixL, List.isPrefixOf, parseQuoted_safe _ hks, parseQuoted_safe _ hvs, mk_data_eta]

theorem decCoreEntries_enc : ∀ (es : List (String × String)), es ≠ [] → SafeCore es →
    decCoreEntries (coreJsonBody es) = some es := by
  intro es
  induction es with
  | nil => intro h _; exact absurd rfl h
  | cons p ps ih =>
    intro _ hsafe
    obtain ⟨hk, hv⟩ := hsafe p (List.mem_cons_self p ps)
    cases ps with
    | nil =>
      show decCoreEntries [coreJsonEntryLine p false, ['\x7d']] = some [p]
      simp [coreJsonEntryLine, decCoreEntries, decCoreEntryLine_enc_last p.1 p.2 hk hv]
    | cons q qs =>
      show decCoreEntries (coreJsonEntryLine p true :: coreJsonBody (q :: qs)) =
        some (p :: q :: qs)
      simp [coreJsonEntryLine, decCoreEntries, decCoreEntryLine_enc_comma p.1 p.2 hk hv,
        ih (by simp) (fun x hx => hsafe x (List.mem_cons_of_mem p hx))]

theorem no_nl_coreJsonEntryLine (p : String × String) (c : Bool) (hk : safeStr p.1 = true)
    (hv : safeStr p.2 = true) : '\n' ∉ coreJsonEntryLine p c := by
  intro hm
  rw [coreJsonEntryLine] at hm
  rcases List.mem_append.mp hm with h | h
  · simp at h
  · rcases List.mem_append.mp h with h | h
    · exact no_nl_jsonStrLit p.1 hk h
    · rcases List.mem_append.mp h with h | h
      · simp at h
      · rcases List.mem_append.mp h with h | h
        · exact no_nl_jsonStrLit p.2 hv h
        · cases c <;> simp_all

theorem no_nl_coreJsonBody : ∀ (es : List (String × String)), SafeCore es →
    ∀ l ∈ coreJsonBody es, '\n' ∉ l := by
  intro es
  induction es with
  | nil =>
    intro _ l hl
    rw [show coreJsonBody [] = [[ '\x7d' ]] from rfl] at hl
    rcases List.mem_cons.mp hl with rfl | hl
    · decide
    · simp at hl
  | cons p ps ih =>
    intro hsafe l hl
    obtain ⟨hk, hv⟩ := hsafe p (List.mem_cons_self p ps)
    cases ps with
    | nil =>
      rw [show coreJsonBody [p] = [coreJsonEntryLine p false, ['\x7d']] from rfl] at hl
      rcases List.mem_cons.mp hl with rfl | hl
      · exact no_nl_coreJsonEntryLine p false hk hv
      · rcases List.mem_cons.mp hl with rfl | hl
        · decide
        · simp at hl
    | cons q qs =>
      rw [show coreJsonBody (p :: q :: qs) =
        coreJsonEntryLine p true :: coreJsonBody (q :: qs) from rfl] at hl
      rcases List.mem_cons.mp hl with rfl | hl
      · exact no_nl_coreJsonEntryLine p true hk hv
      · exact ih (fun x hx => hsafe x (List.mem_cons_of_mem p hx)) l hl

theorem decodeCoreJson_enc (d : List (String × String)) (hsafe : SafeCore d) :
    decodeCoreJson (coreJsonText d) = some d := by
  cases d with
  | nil => decide
  | cons p ps =>
    have hlines : splitLines (coreJsonText (p :: ps)) = ['\x7b'] :: coreJsonBody (p :: ps) := by
      apply splitLines_interLines
      · simp [coreJsonLines]
      · intro l hl
        rcases List.mem_cons.mp hl with rfl | hl
        · decide
        · exact no_nl_coreJsonBody (p :: ps) hsafe l hl
    unfold decodeCoreJson
    rw [hlines]
    simp only []
    rw [if_neg (by decide), if_pos trivial]
    exact decCoreEntries_enc (p :: ps) (by simp) hsafe

theorem decodeCoreJs_enc (d : List (String × String)) (hsafe : SafeCore d) :
    decodeCoreJs (coreJsText d) = some d := by
  unfold decodeCoreJs coreJsText
  rw [expectPrefixL_append]
  simp only []
  rw [dropSuffixL_append (coreJsonText d) ((";").data ++ ['\n'])]
  simp only []
  exact decodeCoreJson_enc d hsafe

theorem absJsEntry_getLast (p : String × AbsVal) : (absJsEntry p).getLast? = some '\x7d' := by
  have hshape : absJsEntry p =
      (("    \"").data ++ p.1.data ++ ("\": \x7babs: \"").data ++ p.2.abs.data ++ ['"']) ++
        ['\x7d'] := by
    simp [absJsEntry]
  rw [hshape]
  exact List.getLast?_concat _

theorem sjrJsEntry_getLast (p : String × SjrVal) : (sjrJsEntry p).getLast? = some '\x7d' := by
  have hshape : sjrJsEntry p =
      (("    \"").data ++ p.1.data ++ ("\": \x7bsjr: ").data ++ (showPyFloat p.2.sjr).data ++
        (", quartile: \"").data ++ p.2.quartile.data ++ ['"']) ++ ['\x7d'] := by
    simp [sjrJsEntry]
  rw [hshape]
  exact List.getLast?_concat _

/-- Comma placement of the hand-written JS emitters: every emitted entry line
except the last ends in a comma, and the last entry line ends with the
closing brace of its object literal — no trailing comma. -/
theorem jsLinesFrom_comma {α : Type} (core : α → List Char)
    (hcore : ∀ p, (core p).getLast? = some '\x7d') :
    ∀ (es : List α), (∀ l ∈ (jsLinesFrom core es).dropLast, l.getLast? = some ',') ∧
      (∀ l, (jsLinesFrom core es).getLast? = some l → l.getLast? = some '\x7d') := by
  intro es
  induction es with
  | nil =>
    constructor
    · intro l hl
      simp [jsLinesFrom] at hl
    · intro l hl
      simp [jsLinesFrom] at hl
  | cons p ps ih =>
    cases ps with
    | nil =>
      constructor
      · intro l hl
        simp [jsLinesFrom] at hl
      · intro l hl
        rw [show jsLinesFrom core [p] = [core p] from rfl] at hl
        simp at hl
        subst hl
        exact hcore p
    | cons q qs =>
      have hstep : jsLinesFrom core (p :: q :: qs) =
          (core p ++ [',']) :: jsLinesFrom core (q :: qs) := rfl
      have hne : jsLinesFrom core (q :: qs) ≠ [] := by
        cases qs <;> simp [jsLinesFrom]
      constructor
      · intro l hl
        rw [hstep, List.dropLast_cons_of_ne_nil hne] at hl
        rcases List.mem_cons.mp hl with rfl | hl
        · exact List.getLast?_concat _
        · exact ih.1 l hl
      · intro l hl
        obtain ⟨x, xs, hx⟩ : ∃ x xs, jsLinesFrom core (q :: qs) = x :: xs := by
          cases qs <;> exact ⟨_, _, rfl⟩
        rw [hstep, hx, List.getLast?_cons_cons, ← hx] at hl
        exact ih.2 l hl

theorem absStep_inv (row : List String) (k : String) (v : AbsVal)
    (h : absStep row = .ok (some (k, v))) :
    ∃ t, row.get? 1 = some t ∧ k = pyLower (pyStrip t) := by
  unfold absStep pyIdx at h
  cases h1 : row.get? 1 with
  | none => rw [h1] at h; cases h
  | some t =>
    cases h2 : row.get? 2 with
    | none => rw [h1, h2] at h; cases h
    | some r =>
      rw [h1, h2] at h
      simp only [Bind.bind, Except.bind, pure, Except.pure] at h
      cases h
      exact ⟨t, rfl, rfl⟩

theorem coreStep_inv (row : List String) (k v : String)
    (h : coreStep row = .ok (some (k, v))) :
    ∃ t, row.get? 1 = some t ∧ k = pyStrip t ∧ k ≠ "" := by
  rw [coreStep_eq_total] at h
  unfold coreStepT at h
  by_cases h9 : row.length < 9
  · rw [if_pos h9] at h; cases h
  · rw [if_neg h9] at h
    simp only [] at h
    by_cases hname : pyStrip (row.getD 1 ("")) = ""
    · rw [if_pos hname] at h; cases h
    · rw [if_neg hname] at h
      push_neg at h9
      have h1 : row.get? 1 = some (row.getD 1 ("")) := by
        rw [List.getD_eq_getElem?_getD, ← List.get?_eq_getElem?]
        cases hg : row.get? 1 with
        | none => rw [List.get?_eq_none] at hg; omega
        | some t => rfl
      cases hcv : coreRankValue (pyStrip (row.getD 4 (""))) (pyStrip (row.getD 5 (""))) with
      | none => rw [hcv] at h; cases h
      | some rv =>
        rw [hcv] at h
        simp only [Option.map_some'] at h
        cases h
        exact ⟨row.getD 1 (""), h1, rfl, hname⟩

theorem sjrStep_inv (row : SjrRow) (k : String) (v : SjrVal)
    (h : sjrStep row = .ok (some (k, v))) :
    ∃ t, row.title = some t ∧ k = pyLower (pyStrip (pyStripQuote t)) := by
  unfold sjrStep sjrField at h
  cases h1 : row.title with
  | none => rw [h1] at h; cases h
  | some t =>
    cases h2 : row.sjr with
    | none => rw [h1, h2] at h; cases h
    | some s =>
      cases h3 : row.quartile with
      | none => rw [h1, h2, h3] at h; cases h
      | some q =>
        rw [h1, h2, h3] at h
        simp only [Bind.bind, Except.bind, pure, Except.pure] at h
        cases hf : pyFloat? (commaToDot (pyStrip s)) with
        | none => rw [hf] at h; cases h
        | some f =>
          rw [hf] at h
          cases h
          exact ⟨t, rfl, rfl⟩

deriving instance DecidableEq for Except

theorem sjrStep_skip (row : SjrRow) (t s q : String) (ht : row.title = some t)
    (hs : row.sjr = some s) (hq : row.quartile = some q)
    (hf : pyFloat? (commaToDot (pyStrip s)) = none) : sjrStep row = .ok none := by
  unfold sjrStep sjrField
  rw [ht, hs, hq]
  simp only [Bind.bind, Except.bind, hf]
  rfl

theorem sjrStep_accept (row : SjrRow) (t s q : String) (f : PyFloat) (ht : row.title = some t)
    (hs : row.sjr = some s) (hq : row.quartile = some q)
    (hf : pyFloat? (commaToDot (pyStrip s)) = some f) :
    sjrStep row = .ok (some (pyLower (pyStrip (pyStripQuote t)),
      ⟨f, if pyStrip q ≠ "" then pyStrip q else ("-")⟩)) := by
  unfold sjrStep sjrField
  rw [ht, hs, hq]
  simp only [Bind.bind, Except.bind, hf]
  rfl

theorem sjrStep_ok_iff_parse (row : SjrRow) (t s q : String) (ht : row.title = some t)
    (hs : row.sjr = some s) (hq : row.quartile = some q) :
    (∃ k v, sjrStep row = .ok (some (k, v))) ↔
      (pyFloat? (commaToDot (pyStrip s))).isSome := by
  constructor
  · intro ⟨k, v, hkv⟩
    cases hf : pyFloat? (commaToDot (pyStrip s)) with
    | none =>
      rw [sjrStep_skip row t s q ht hs hq hf] at hkv
      cases hkv
    | some f => rfl
  · intro hf
    cases hfc : pyFloat? (commaToDot (pyStrip s)) with
    | none => rw [hfc] at hf; cases hf
    | some f =>
      exact ⟨_, _, sjrStep_accept row t s q f ht hs hq hfc⟩

/-- When the last accepted occurrence of a key in the row stream is row `r`, the
final table maps the key to the value of `r`: the dict assignment of the later row
silently overwrites any earlier binding. -/
theorem runRows_last_occurrence {ρ V : Type} (f : ρ → Except PyErr (Option (String × V)))
    (l1 l2 : List ρ) (r : ρ) (k : String) (v : V) (acc t : List (String × V))
    (hr : f r = .ok (some (k, v)))
    (hno : ∀ r' ∈ l2, ∀ v', f r' ≠ .ok (some (k, v')))
    (h : runRows f (l1 ++ r :: l2) acc = .ok t) :
    lookup? t k = some v := by
  rw [runRows_append] at h
  cases h1 : runRows f l1 acc with
  | error e => rw [h1] at h; simp at h
  | ok t1 =>
    rw [h1] at h
    simp only [runRows, hr] at h
    rw [runRows_lookup_untouched f l2 _ t k h hno, lookup_dictInsert_self]

/-- C1 (corrected).  Row-error policy of the three extractors as implemented:
(1) the CORE extractor never raises — it equals its total companion on every
input; (2) the SJR extractor never raises when every row has its three fields
present; (3) an SJR row whose SJR value fails to parse is skipped and
extraction continues with the remaining rows; but (4) an ABS row with fewer
than three columns raises `IndexError` out of `absStep`, and (5) such a row
makes the whole `extract_abs_rankings` run abort with an exception — contrary
to the claim, a row-local failure can escape the extraction function. -/
theorem c1_row_error_policy :
    (∀ (rows : List (List String)),
      extract_full_core_rankings rows = .ok (runRowsTotal coreStepT rows [])) ∧
    (∀ (rows : List SjrRow),
      (∀ r ∈ rows, r.title ≠ none ∧ r.sjr ≠ none ∧ r.quartile ≠ none) →
      extract_sjr_rankings rows = .ok (runRowsTotal sjrStepT rows [])) ∧
    (∀ (row : SjrRow) (rest : List SjrRow) (acc : List (String × SjrVal)),
      sjrStep row = .ok none →
      runRows sjrStep (row :: rest) acc = runRows sjrStep rest acc) ∧
    (∀ (row : List String), row.length < 3 → absStep row = .error PyErr.indexError) ∧
    (∀ (hd : List String) (body : List (List String)) (r : List String),
      r ∈ body → r.length < 3 → ∃ e, extract_abs_rankings (hd :: body) = .error e) := by
  refine ⟨?_, ?_, ?_, ?_, ?_⟩
  · intro rows
    exact runRows_eq_total coreStep coreStepT rows [] (fun r _ => coreStep_eq_total r)
  · intro rows hfields
    exact runRows_eq_total sjrStep sjrStepT rows []
      (fun r hr => sjrStep_eq_total r (hfields r hr).1 (hfields r hr).2.1 (hfields r hr).2.2)
  · intro row rest acc h
    simp [runRows, h]
  · intro row h
    exact absStep_error_of_short row h
  · intro hd body r hmem hlen
    exact runRows_error_of_mem absStep body [] r PyErr.indexError hmem
      (absStep_error_of_short r hlen)

theorem c1_witness :
    extract_full_core_rankings [["x"]] = .ok (runRowsTotal coreStepT [["x"]] []) ∧
    extract_sjr_rankings [⟨some ("T"), some ("2"), some ("Q1")⟩] =
      .ok (runRowsTotal sjrStepT [⟨some ("T"), some ("2"), some ("Q1")⟩] []) ∧
    absStep [("x")] = .error PyErr.indexError :=
  ⟨c1_row_error_policy.1 [["x"]],
   c1_row_error_policy.2.1 [⟨some ("T"), some ("2"), some ("Q1")⟩] (by decide),
   c1_row_error_policy.2.2.2.1 [("x")] (by decide)⟩

/-- C1 counterexample: a short data row (one column) makes
`extract_abs_rankings` itself raise `IndexError` — the exception is not
confined to the row, contradicting the claim that only file-open failures
abort. -/
theorem c1_cex_abs_short_row_raises :
    extract_abs_rankings [[("h")], [("x")]] = .error PyErr.indexError := by
  decide

/-- C2 (corrected).  Keys as actually normalized by each extractor: ABS keys
are the trimmed-and-lower-cased column 1; SJR keys are the Title field with
wrapping double quotes stripped, then trimmed and lower-cased; CORE keys are
only trimmed (`row[1].strip()`), with no lower-casing — so the claimed
"trimmed and lowercased" fails for CORE (and for quoted SJR titles). -/
theorem c2_key_normalization :
    (∀ (hd : List String) (body : List (List String)) (t : List (String × AbsVal)),
      extract_abs_rankings (hd :: body) = .ok t → ∀ k ∈ dictKeys t,
      ∃ r ∈ body, ∃ s, r.get? 1 = some s ∧ k = pyLower (pyStrip s)) ∧
    (∀ (rows : List SjrRow) (t : List (String × SjrVal)),
      extract_sjr_rankings rows = .ok t → ∀ k ∈ dictKeys t,
      ∃ r ∈ rows, ∃ s, r.title = some s ∧ k = pyLower (pyStrip (pyStripQuote s))) ∧
    (∀ (rows : List (List String)) (t : List (String × String)),
      extract_full_core_rankings rows = .ok t → ∀ k ∈ dictKeys t,
      ∃ r ∈ rows, ∃ s, r.get? 1 = some s ∧ k = pyStrip s) := by
  refine ⟨?_, ?_, ?_⟩
  · intro hd body t hok k hk
    rcases runRows_keys_from absStep body [] t hok k hk with h | ⟨r, hr, v, hv⟩
    · simp [dictKeys] at h
    · obtain ⟨s, hs, hks⟩ := absStep_inv r k v hv
      exact ⟨r, hr, s, hs, hks⟩
  · intro rows t hok k hk
    rcases runRows_keys_from sjrStep rows [] t hok k hk with h | ⟨r, hr, v, hv⟩
    · simp [dictKeys] at h
    · obtain ⟨s, hs, hks⟩ := sjrStep_inv r k v hv
      exact ⟨r, hr, s, hs, hks⟩
  · intro rows t hok k hk
    rcases runRows_keys_from coreStep rows [] t hok k hk with h | ⟨r, hr, v, hv⟩
    · simp [dictKeys] at h
    · obtain ⟨s, hs, hks, _⟩ := coreStep_inv r k v hv
      exact ⟨r, hr, s, hs, hks⟩

theorem c2_witness :
    ∃ r ∈ [[("x"), ("AStar"), ("1")]], ∃ s, List.get? r 1 = some s ∧
      ("astar" : String) = pyLower (pyStrip s) :=
  c2_key_normalization.1 [("h"), ("h"), ("h")] [[("x"), ("AStar"), ("1")]]
    [(("astar" : String), (⟨("1")⟩ : AbsVal))] (by decide) ("astar") (by decide)

/-- C2 counterexample: the CORE extractor stores the conference acronym
`ICSE` under the key `ICSE`, not under the trimmed-and-lower-cased `icse`
the claim requires. -/
theorem c2_cex_core_key_not_lowercased :
    extract_full_core_rankings [[("x"), ("ICSE"), ("x"), ("x"), ("A*"), ("B"), ("x"), ("x"), ("x")]] =
      .ok [(("ICSE"), ("A* [2023]"))] ∧
    ("ICSE" : String) ≠ pyLower (pyStrip ("ICSE")) := by
  constructor
  · decide
  · decide

/-- C3 (corrected).  Only the CORE extractor drops rows whose normalized
title is empty (every key of its table is nonempty); ABS and SJR have no such
guard — a row accepted with the empty key puts `""` into the table. -/
theorem c3_empty_title :
    (∀ (rows : List (List String)) (t : List (String × String)),
      extract_full_core_rankings rows = .ok t → ∀ k ∈ dictKeys t, k ≠ "") ∧
    (∀ (hd : List String) (body : List (List String)) (t : List (String × AbsVal))
      (r : List String) (v : AbsVal), extract_abs_rankings (hd :: body) = .ok t →
      r ∈ body → absStep r = .ok (some ("", v)) → ("" : String) ∈ dictKeys t) ∧
    (∀ (rows : List SjrRow) (t : List (String × SjrVal)) (r : SjrRow) (v : SjrVal),
      extract_sjr_rankings rows = .ok t → r ∈ rows →
      sjrStep r = .ok (some ("", v)) → ("" : String) ∈ dictKeys t) := by
  refine ⟨?_, ?_, ?_⟩
  · intro rows t hok k hk
    rcases runRows_keys_from coreStep rows [] t hok k hk with h | ⟨r, _, v, hv⟩
    · simp [dictKeys] at h
    · obtain ⟨_, _, _, hne⟩ := coreStep_inv r k v hv
      exact hne
  · intro hd body t r v hok hr hstep
    exact runRows_mem_key absStep body [] t r ("") v hr hstep hok
  · intro rows t r v hok hr hstep
    exact runRows_mem_key sjrStep rows [] t r ("") v hr hstep hok

theorem c3_witness :
    ("ICSE" : String) ≠ "" ∧ ("" : String) ∈ dictKeys [(("" : String), (⟨("B")⟩ : AbsVal))] :=
  ⟨c3_empty_title.1 [[("x"), ("ICSE"), ("x"), ("x"), ("A*"), ("B"), ("x"), ("x"), ("x")]]
      [(("ICSE"), ("A* [2023]"))] (by decide) ("ICSE") (by decide),
   c3_empty_title.2.1 [("t"), ("t"), ("t")] [[("id"), (" "), ("B")]]
      [(("" : String), (⟨("B")⟩ : AbsVal))] [("id"), (" "), ("B")] (⟨("B")⟩ : AbsVal)
      (by decide) (by decide) (by decide)⟩

/-- C3 counterexample: an ABS row whose title strips to the empty string is
stored under the empty key — the key set of the resulting table contains `""`,
contradicting the claim for the ABS extractor. -/
theorem c3_cex_abs_stores_empty_key :
    extract_abs_rankings [[("t"), ("t"), ("t")], [("id"), (" "), ("B")]] =
      .ok [(("" : String), (⟨("B")⟩ : AbsVal))] ∧
    ("" : String) ∈ dictKeys [(("" : String), (⟨("B")⟩ : AbsVal))] := by
  constructor
  · decide
  · decide

/-- C4 (corrected).  The hand-written ABS and SJR script emitters do write
the keys of the table in code-point lexicographic order, independent of insertion
order, with a comma on every entry line except the last (the last entry line
ends with the closing brace of the object literal).  The CORE script artifact,
produced by `json.dump` with no `sort_keys`, keeps insertion order instead —
refuted separately by the counterexample. -/
theorem c4_sorted_emission :
    (∀ (V : Type) (d : List (String × V)),
      List.Sorted (fun a b : String × V => a.1.data ≤ b.1.data) (sortByKey d)) ∧
    (∀ (d₁ d₂ : List (String × AbsVal)), List.Perm d₁ d₂ → (dictKeys d₁).Nodup →
      absJsText d₁ = absJsText d₂) ∧
    (∀ (d₁ d₂ : List (String × SjrVal)), List.Perm d₁ d₂ → (dictKeys d₁).Nodup →
      sjrJsText d₁ = sjrJsText d₂) ∧
    (∀ (d : List (String × AbsVal)),
      (∀ l ∈ (jsLinesFrom absJsEntry (sortByKey d)).dropLast, l.getLast? = some ',') ∧
      (∀ l, (jsLinesFrom absJsEntry (sortByKey d)).getLast? = some l →
        l.getLast? = some '\x7d')) ∧
    (∀ (d : List (String × SjrVal)),
      (∀ l ∈ (jsLinesFrom sjrJsEntry (sortByKey d)).dropLast, l.getLast? = some ',') ∧
      (∀ l, (jsLinesFrom sjrJsEntry (sortByKey d)).getLast? = some l →
        l.getLast? = some '\x7d')) := by
  refine ⟨?_, ?_, ?_, ?_, ?_⟩
  · intro V d
    exact sortByKey_sorted d
  · intro d₁ d₂ hp hnd
    unfold absJsText abs_generate_javascript_dict
    rw [sortByKey_eq_of_perm d₁ d₂ hp hnd]
  · intro d₁ d₂ hp hnd
    unfold sjrJsText sjr_generate_javascript_dict
    rw [sortByKey_eq_of_perm d₁ d₂ hp hnd]
  · intro d
    exact jsLinesFrom_comma absJsEntry absJsEntry_getLast (sortByKey d)
  · intro d
    exact jsLinesFrom_comma sjrJsEntry sjrJsEntry_getLast (sortByKey d)

theorem c4_witness :
    absJsText [(("b"), (⟨("2")⟩ : AbsVal)), (("a"), ⟨("1")⟩)] =
      absJsText [(("a"), (⟨("1")⟩ : AbsVal)), (("b"), ⟨("2")⟩)] ∧
    List.Sorted (fun a b : String × AbsVal => a.1.data ≤ b.1.data)
      (sortByKey [(("b"), (⟨("2")⟩ : AbsVal)), (("a"), ⟨("1")⟩)]) :=
  ⟨c4_sorted_emission.2.1 _ _ (List.Perm.swap _ _ _) (by decide),
   c4_sorted_emission.1 AbsVal _⟩

/-- C4 counterexample: the CORE script artifact is not independent of
insertion order — two tables equal as maps (one the swap of the other) yield
different `core_rankings.js` texts, because `json.dump` emits insertion
order. -/
theorem c4_cex_core_js_insertion_order :
    coreJsText [(("b"), ("C [2023]")), (("a"), ("A* [2023]"))] ≠
      coreJsText [(("a"), ("A* [2023]")), (("b"), ("C [2023]"))] ∧
    List.Perm [(("b" : String), ("C [2023]" : String)), (("a"), ("A* [2023]"))]
      [(("a"), ("A* [2023]")), (("b"), ("C [2023]"))] := by
  constructor
  · decide
  · exact List.Perm.swap _ _ _

/-- C5 (confirmed).  For a CORE row with at least 9 columns and nonempty
stripped title: the stored value of the row is the classification of the stripped
2023 column (`row[4]`) with the stripped 2021 column (`row[5]`) as fallback;
when the 2023 column is nonempty the 2021 column is ignored entirely; a 2023
value `A*` yields `A* [2023]` whatever the 2021 column holds; an empty 2023
column with 2021 value `B` yields `B [2021]`. -/
theorem c5_core_rank_selection :
    ∀ (row : List String), 9 ≤ row.length → pyStrip (row.getD 1 ("")) ≠ "" →
    (coreStep row = .ok ((coreRankValue (pyStrip (row.getD 4 ("")))
        (pyStrip (row.getD 5 ("")))).map (fun v => (pyStrip (row.getD 1 ("")), v)))) ∧
    (∀ (a b b' : String), a ≠ "" → coreRankValue a b = coreRankValue a b') ∧
    (∀ (b : String), coreRankValue ("A*") b = some ("A* [2023]")) ∧
    (coreRankValue ("") ("B") = some ("B [2021]")) := by
  intro row h9 hname
  refine ⟨?_, ?_, ?_, ?_⟩
  · rw [coreStep_eq_total]
    unfold coreStepT
    rw [if_neg (by omega), if_neg hname]
  · intro a b b' ha
    simp [coreRankValue, ha]
  · intro b
    simp [coreRankValue]
  · decide

theorem c5_witness :
    coreStep [("x"), ("Name"), ("x"), ("x"), ("A*"), ("B"), ("x"), ("x"), ("x")] =
      .ok ((coreRankValue (pyStrip ("A*")) (pyStrip ("B"))).map
        (fun v => (pyStrip ("Name"), v))) ∧
    coreRankValue ("A*") ("C") = some ("A* [2023]") ∧
    coreRankValue ("") ("B") = some ("B [2021]") :=
  ⟨(c5_core_rank_selection [("x"), ("Name"), ("x"), ("x"), ("A*"), ("B"), ("x"), ("x"), ("x")]
      (by decide) (by decide)).1,
   (c5_core_rank_selection [("x"), ("Name"), ("x"), ("x"), ("A*"), ("B"), ("x"), ("x"), ("x")]
      (by decide) (by decide)).2.2.1 ("C"),
   (c5_core_rank_selection [("x"), ("Name"), ("x"), ("x"), ("A*"), ("B"), ("x"), ("x"), ("x")]
      (by decide) (by decide)).2.2.2⟩

/-- C6 (corrected).  For a primary rank outside `{A*, A, B, C}`: a rank
beginning with `Australasian` is stored with `str.replace` applied — which
rewrites **every** occurrence of `Australasian` to `Au`, coinciding with the
claimed prefix rewrite exactly when the word occurs only once; likewise for
`National` → `Nat`; `TBR` is stored verbatim; any other rank silently
excludes the row (`coreRankValue` returns `none`, no error). -/
theorem c6_rank_rewrites :
    ∀ (r23 r21 primary : String), (if r23 ≠ "" then r23 else r21) = primary →
    primary ≠ "A*" → primary ≠ "A" → primary ≠ "B" → primary ≠ "C" →
    (∀ (rest : String), primary = ("Australasian") ++ rest →
      hasOcc (("Australasian").data) rest.data = false →
      coreRankValue r23 r21 = some (("Au") ++ rest)) ∧
    (∀ (rest : String), primary = ("National") ++ rest →
      hasOcc (("National").data) rest.data = false →
      coreRankValue r23 r21 = some (("Nat") ++ rest)) ∧
    (primary = "TBR" → coreRankValue r23 r21 = some ("TBR")) ∧
    (pyStartsWith primary ("Australasian") = false →
      pyStartsWith primary ("National") = false → primary ≠ "TBR" →
      coreRankValue r23 r21 = none) := by
  intro r23 r21 primary hp h1 h2 h3 h4
  have habc : ¬ (primary = "A*" ∨ primary = "A" ∨ primary = "B" ∨ primary = "C") := by
    simp [h1, h2, h3, h4]
  refine ⟨?_, ?_, ?_, ?_⟩
  · intro rest hpr hocc
    have hsw : pyStartsWith primary ("Australasian") = true := by
      rw [hpr]
      unfold pyStartsWith
      rw [String.data_append]
      exact isPrefixOf_self_append _ _
    simp only [coreRankValue, hp]
    rw [if_neg habc, if_pos hsw, hpr]
    rw [pyReplace_single_occ ("Australasian") ("Au") rest (by decide) hocc]
  · intro rest hpr hocc
    have hsw : pyStartsWith primary ("National") = true := by
      rw [hpr]
      unfold pyStartsWith
      rw [String.data_append]
      exact isPrefixOf_self_append _ _
    have hnsw : pyStartsWith primary ("Australasian") = false := by
      rw [hpr]
      unfold pyStartsWith
      simp [List.isPrefixOf, String.data_append]
    simp only [coreRankValue, hp]
    rw [if_neg habc, if_neg (by simp [hnsw]), if_pos hsw, hpr]
    rw [pyReplace_single_occ ("National") ("Nat") rest (by decide) hocc]
  · intro hpr
    simp only [coreRankValue, hp]
    rw [if_neg habc]
    subst hpr
    rw [if_neg (by decide), if_neg (by decide), if_pos rfl]
  · intro hno1 hno2 hno3
    simp only [coreRankValue, hp]
    rw [if_neg habc, if_neg (by simp [hno1]), if_neg (by simp [hno2]), if_neg hno3]

theorem c6_witness :
    coreRankValue ("Australasian B") ("x") = some (("Au") ++ (" B")) ∧
    coreRankValue ("junk") ("x") = none :=
  ⟨(c6_rank_rewrites ("Australasian B") ("x") ("Australasian B") (by decide) (by decide)
      (by decide) (by decide) (by decide)).1 (" B") (by decide) (by decide),
   (c6_rank_rewrites ("junk") ("x") ("junk") (by decide) (by decide) (by decide) (by decide)
      (by decide)).2.2.2 (by decide) (by decide) (by decide)⟩

/-- C6 counterexample: with a rank in which `Australasian` occurs twice, the
implemented `str.replace` rewrites both occurrences, so the stored value is
`Au Au B` — not the claimed prefix-only rewrite `Au Australasian B`. -/
theorem c6_cex_replace_all_occurrences :
    coreRankValue ("Australasian Australasian B") ("") = some ("Au Au B") ∧
    some ("Au Au B") ≠ some (("Au") ++ (" Australasian B")) := by
  constructor
  · decide
  · decide

/-- Evaluation of the example in the claim: `"1,234"` decimal-normalizes to
`"1.234"`, which denotes exactly 1234/1000. -/
theorem pyFloat_comma_example :
    pyFloat? (commaToDot ("1,234")) = some (.finite ((1234 : ℚ) / 1000)) := by
  simp [pyFloat?, commaToDot, stripBoth, isSpaceChar, underscoresOK, parseUnsigned,
    parseNumeric, parseMantissa, parseExp, digitsToNat, asciiLower, List.dropWhile,
    List.takeWhile, List.filter, List.range, List.range.loop]
  norm_num

/-- C7 (confirmed).  The SJR value is parsed as a float after replacing every
comma by a dot, so `1,234` denotes exactly 1.234; a row whose SJR value does
not parse is skipped (`.ok none`) and extraction continues with the remaining
rows; an accepted row with empty (stripped) quartile stores `-` as its
quartile. -/
theorem c7_sjr_parse_policy :
    (pyFloat? (commaToDot ("1,234")) = some (.finite ((1234 : ℚ) / 1000))) ∧
    (∀ (row : SjrRow) (t s q : String), row.title = some t → row.sjr = some s →
      row.quartile = some q → pyFloat? (commaToDot (pyStrip s)) = none →
      sjrStep row = .ok none) ∧
    (∀ (row : SjrRow) (rest : List SjrRow) (acc : List (String × SjrVal)),
      sjrStep row = .ok none →
      runRows sjrStep (row :: rest) acc = runRows sjrStep rest acc) ∧
    (∀ (row : SjrRow) (t s q : String) (f : PyFloat), row.title = some t →
      row.sjr = some s → row.quartile = some q →
      pyFloat? (commaToDot (pyStrip s)) = some f → pyStrip q = "" →
      sjrStep row = .ok (some (pyLower (pyStrip (pyStripQuote t)), ⟨f, ("-")⟩))) := by
  refine ⟨pyFloat_comma_example, ?_, ?_, ?_⟩
  · intro row t s q ht hs hq hf
    exact sjrStep_skip row t s q ht hs hq hf
  · intro row rest acc h
    simp [runRows, h]
  · intro row t s q f ht hs hq hf hqe
    rw [sjrStep_accept row t s q f ht hs hq hf, hqe]
    simp

theorem c7_witness :
    sjrStep ⟨some ("T"), some ("abc"), some ("Q1")⟩ = .ok none ∧
    sjrStep ⟨some ("\"J\""), some ("1,234"), some ("")⟩ =
      .ok (some (pyLower (pyStrip (pyStripQuote ("\"J\""))),
        ⟨.finite ((1234 : ℚ) / 1000), ("-")⟩)) :=
  ⟨c7_sjr_parse_policy.2.1 ⟨some ("T"), some ("abc"), some ("Q1")⟩ ("T") ("abc") ("Q1")
      rfl rfl rfl (by decide),
   c7_sjr_parse_policy.2.2.2 ⟨some ("\"J\""), some ("1,234"), some ("")⟩ ("\"J\"") ("1,234")
      ("") (.finite ((1234 : ℚ) / 1000)) rfl rfl rfl
      (by rw [show pyStrip ("1,234") = ("1,234") from by decide]; exact pyFloat_comma_example)
      (by decide)⟩

/-- C9 (confirmed).  In all three extractors, when row `r` is accepted with
key `k` and no later row is accepted with the same key, the final table maps
`k` to the value of `r`: a later duplicate silently overwrites the earlier binding
(dict assignment), with no merging and no error. -/
theorem c9_duplicate_overwrite :
    (∀ (hd : List String) (l1 l2 : List (List String)) (r : List String) (k : String)
      (v : AbsVal) (t : List (String × AbsVal)),
      absStep r = .ok (some (k, v)) →
      (∀ r' ∈ l2, ∀ v', absStep r' ≠ .ok (some (k, v'))) →
      extract_abs_rankings (hd :: (l1 ++ r :: l2)) = .ok t →
      lookup? t k = some v) ∧
    (∀ (l1 l2 : List (List String)) (r : List String) (k v : String)
      (t : List (String × String)),
      coreStep r = .ok (some (k, v)) →
      (∀ r' ∈ l2, ∀ v', coreStep r' ≠ .ok (some (k, v'))) →
      extract_full_core_rankings (l1 ++ r :: l2) = .ok t →
      lookup? t k = some v) ∧
    (∀ (l1 l2 : List SjrRow) (r : SjrRow) (k : String) (v : SjrVal)
      (t : List (String × SjrVal)),
      sjrStep r = .ok (some (k, v)) →
      (∀ r' ∈ l2, ∀ v', sjrStep r' ≠ .ok (some (k, v'))) →
      extract_sjr_rankings (l1 ++ r :: l2) = .ok t →
      lookup? t k = some v) := by
  refine ⟨?_, ?_, ?_⟩
  · intro hd l1 l2 r k v t hr hno hok
    exact runRows_last_occurrence absStep l1 l2 r k v [] t hr hno hok
  · intro l1 l2 r k v t hr hno hok
    exact runRows_last_occurrence coreStep l1 l2 r k v [] t hr hno hok
  · intro l1 l2 r k v t hr hno hok
    exact runRows_last_occurrence sjrStep l1 l2 r k v [] t hr hno hok

theorem c9_witness :
    lookup? [(("dup" : String), (⟨("2")⟩ : AbsVal))] ("dup") = some (⟨("2")⟩ : AbsVal) :=
  c9_duplicate_overwrite.1 [("h"), ("h"), ("h")] [[("x"), ("Dup"), ("1")]] []
    [("y"), (" dup "), ("2")] ("dup") ⟨("2")⟩ [(("dup"), ⟨("2")⟩)]
    (by decide) (by simp) (by decide)

/-- C10 (confirmed).  `replace(',', '.')` rewrites every comma of the SJR
field, so a field containing two or more commas always fails the float parse
and the row is skipped; in general a row (with its fields present) is
accepted exactly when the fully dot-substituted stripped SJR string parses as
a Python float literal. -/
theorem c10_sjr_accept_iff_float :
    (∀ (row : SjrRow) (t s q : String), row.title = some t → row.sjr = some s →
      row.quartile = some q → 2 ≤ s.data.count ',' → sjrStep row = .ok none) ∧
    (∀ (row : SjrRow) (t s q : String), row.title = some t → row.sjr = some s →
      row.quartile = some q →
      ((∃ k v, sjrStep row = .ok (some (k, v))) ↔
        (pyFloat? (commaToDot (pyStrip s))).isSome)) := by
  constructor
  · intro row t s q ht hs hq hcount
    have hstrip : (pyStrip s).data.count ',' = s.data.count ',' :=
      count_stripBoth_eq isSpaceChar ',' (by decide) s.data
    have hnone : pyFloat? (commaToDot (pyStrip s)) = none :=
      pyFloat?_commaToDot_none_of_two_commas (pyStrip s) (by omega)
    exact sjrStep_skip row t s q ht hs hq hnone
  · intro row t s q ht hs hq
    exact sjrStep_ok_iff_parse row t s q ht hs hq

theorem c10_witness :
    sjrStep ⟨some ("T"), some ("1,234,5"), some ("Q1")⟩ = .ok none ∧
    ((∃ k v, sjrStep ⟨some ("T"), some ("9"), some ("Q1")⟩ = .ok (some (k, v))) ↔
      (pyFloat? (commaToDot (pyStrip ("9")))).isSome) :=
  ⟨c10_sjr_accept_iff_float.1 ⟨some ("T"), some ("1,234,5"), some ("Q1")⟩ ("T") ("1,234,5")
      ("Q1") rfl rfl rfl (by decide),
   c10_sjr_accept_iff_float.2 ⟨some ("T"), some ("9"), some ("Q1")⟩ ("T") ("9") ("Q1")
      rfl rfl rfl⟩

/-- C8 (corrected).  For tables whose keys and values are free of characters
that need JSON escaping (printable, no `"`, no backslash), the two serialized
views are semantically equivalent: the ABS JSON artifact decodes to the
entries of the table in insertion order, the ABS script artifact decodes to the
same entries sorted by key, and the two decoded views have the same key set
and the same value at every key; the CORE artifacts both decode to the very
same entry list.  Without that restriction the equivalence fails — the script
writer does not escape, see the counterexample. -/
theorem c8_roundtrip_equivalence :
    (∀ (d : List (String × AbsVal)), SafeAbs d → (dictKeys d).Nodup →
      decodeAbsJson (absJsonText d) = some d ∧
      decodeAbsJs (absJsText d) = some (sortByKey d) ∧
      (∀ k, k ∈ dictKeys (sortByKey d) ↔ k ∈ dictKeys d) ∧
      (∀ k, lookup? (sortByKey d) k = lookup? d k)) ∧
    (∀ (d : List (String × String)), SafeCore d →
      decodeCoreJson (coreJsonText d) = some d ∧ decodeCoreJs (coreJsText d) = some d) := by
  constructor
  · intro d hsafe hnd
    refine ⟨decodeAbsJson_enc d hsafe, decodeAbsJs_enc d hsafe, ?_, ?_⟩
    · intro k
      exact ((sortByKey_perm d).map Prod.fst).mem_iff
    · intro k
      exact lookup_eq_of_perm (sortByKey d) d (sortByKey_perm d)
        ((((sortByKey_perm d).map Prod.fst).nodup_iff).mpr hnd) k
  · intro d hsafe
    exact ⟨decodeCoreJson_enc d hsafe, decodeCoreJs_enc d hsafe⟩

theorem c8_witness :
    decodeAbsJson (absJsonText [(("alpha"), (⟨("1")⟩ : AbsVal))]) =
      some [(("alpha"), ⟨("1")⟩)] ∧
    decodeAbsJs (absJsText [(("alpha"), (⟨("1")⟩ : AbsVal))]) =
      some (sortByKey [(("alpha"), ⟨("1")⟩)]) ∧
    lookup? (sortByKey [(("alpha"), (⟨("1")⟩ : AbsVal))]) ("alpha") =
      lookup? [(("alpha"), ⟨("1")⟩)] ("alpha") ∧
    decodeCoreJson (coreJsonText [(("c"), ("TBR"))]) = some [(("c"), ("TBR"))] :=
  ⟨(c8_roundtrip_equivalence.1 [(("alpha"), ⟨("1")⟩)] (by unfold SafeAbs; decide) (by decide)).1,
   (c8_roundtrip_equivalence.1 [(("alpha"), ⟨("1")⟩)] (by unfold SafeAbs; decide) (by decide)).2.1,
   (c8_roundtrip_equivalence.1 [(("alpha"), ⟨("1")⟩)] (by unfold SafeAbs; decide)
      (by decide)).2.2.2 ("alpha"),
   (c8_roundtrip_equivalence.2 [(("c"), ("TBR"))] (by unfold SafeCore; decide)).1⟩

/-- C8 counterexample: a title containing a double quote.  The JSON artifact
escapes it and decodes back to the table, but the script artifact is written
with raw interpolation, so its reader cannot recover the entry (the first
quote ends the title): the two views are not equivalent. -/
theorem c8_cex_quote_breaks_js_view :
    decodeAbsJson (absJsonText [(("a\"b"), (⟨("1")⟩ : AbsVal))]) =
      some [(("a\"b"), ⟨("1")⟩)] ∧
    decodeAbsJs (absJsText [(("a\"b"), (⟨("1")⟩ : AbsVal))]) = none := by
  constructor
  · decide
  · decide
